import Mathlib

/-!
Verification of the lexer/Pratt-parser front end.

The parser (`src/parser/parser.rs`) is embedded shallowly: the parser's
mutable state (`current_token`, `peeking_token`, the lexer) is represented
by the list of tokens still to be delivered, with `currentToken` the head
(defaulting to `Token.EOF`, matching the lexer's behaviour of returning the
end marker forever after exhaustion) and `nextToken` the tail.  Each Rust
parse function becomes a Lean function threading this list; `Except` models
the `Result` short-circuiting, and the state reached at the moment of a
failure is kept (as in Rust, where the state lives in `&mut self`).
Recursion is made structural with an explicit fuel parameter; a sufficiency
theorem below shows that fuel linear in the token count is always enough,
so the fuel-free wrappers (`parseProgram` etc.) compute the code's result.

The token model, precedence table, lexer and AST rendering live in modules
of the repository that are not part of the parser source file; they are
modelled from the specification where so marked.
-/

/-- Token model.  Modelled from the spec: the closed set of lexical units
(the repository's `token` module): end marker, identifier and integer
literal carrying their source text, the keywords, and the fixed
punctuation/operator set. -/
inductive Token where
| EOF : Token
| Identifier : String → Token
| Integer : String → Token
| Let : Token
| Return : Token
| Function : Token
| If : Token
| Else : Token
| True : Token
| False : Token
| Assign : Token
| Plus : Token
| Minus : Token
| Bang : Token
| Asterisk : Token
| Slash : Token
| LT : Token
| GT : Token
| Eq : Token
| NotEq : Token
| Comma : Token
| Semicolon : Token
| LParen : Token
| RParen : Token
| LBrace : Token
| RBrace : Token
deriving DecidableEq, Repr

/-- Precedence levels.  Modelled from the spec: the table low → high is
LOWEST, EQUALS, LESSGREATER, SUM, PRODUCT, PREFIX, CALL (the repository's
`parser/precedence` module). -/
inductive Precedence where
| LOWEST : Precedence
| EQUALS : Precedence
| LESSGREATER : Precedence
| SUM : Precedence
| PRODUCT : Precedence
| PREFIX : Precedence
| CALL : Precedence
deriving DecidableEq, Repr

/-- Numeric rank of a precedence level, used to compare levels. -/
def Precedence.toNat : Precedence → Nat
| .LOWEST => 0
| .EQUALS => 1
| .LESSGREATER => 2
| .SUM => 3
| .PRODUCT => 4
| .PREFIX => 5
| .CALL => 6

instance : LT Precedence := ⟨fun a b => a.toNat < b.toNat⟩

instance (a b : Precedence) : Decidable (a < b) :=
inferInstanceAs (Decidable (a.toNat < b.toNat))

/-- Precedence of a token in infix position (`Precedence::from(&Token)`).
Modelled from the spec: `==`/`!=` map to EQUALS, `<`/`>` to LESSGREATER,
`+`/`-` to SUM, `*`/`/` to PRODUCT, `(` to CALL, and every token with no
infix meaning maps to LOWEST. -/
def Precedence.fromTok : Token → Precedence
| .Eq => .EQUALS
| .NotEq => .EQUALS
| .LT => .LESSGREATER
| .GT => .LESSGREATER
| .Plus => .SUM
| .Minus => .SUM
| .Asterisk => .PRODUCT
| .Slash => .PRODUCT
| .LParen => .CALL
| _ => .LOWEST

/-- Prefix operators of the AST (the repository's `ast/operator` module,
modelled from the spec). -/
inductive PrefixOperator where
| Not : PrefixOperator
| Negative : PrefixOperator
deriving DecidableEq, Repr

/-- Infix operators of the AST (the repository's `ast/operator` module,
modelled from the spec). -/
inductive InfixOperator where
| Add : InfixOperator
| Sub : InfixOperator
| Mult : InfixOperator
| Div : InfixOperator
| Equal : InfixOperator
| NotEqual : InfixOperator
| GreaterThan : InfixOperator
| LessThan : InfixOperator
deriving DecidableEq, Repr

mutual

/-- Expression nodes of the AST.  Modelled from the spec: identifier,
64-bit integer literal, boolean, unary, binary, `if` with optional
alternative block, function literal, and call. -/
inductive Expression where
| Identifier : String → Expression
| Int : Int → Expression
| Bool : Bool → Expression
| Prefix : PrefixOperator → Expression → Expression
| Infix : InfixOperator → Expression → Expression → Expression
| If : Expression → List Statement → Option (List Statement) → Expression
| Function : List Expression → List Statement → Expression
| Call : Expression → List Expression → Expression
deriving Repr

/-- Statement nodes of the AST: `let`, `return`, and expression statement.
Modelled from the spec. -/
inductive Statement where
| Let : String → Expression → Statement
| Return : Expression → Statement
| Expression : Expression → Statement
deriving Repr

end

/-- The parse result: an ordered sequence of statements. -/
structure Program where
statements : List Statement
deriving Repr

/-- Parse errors carry no data in the source (`pub struct ParserError {}`). -/
inductive ParserError where
| mk : ParserError
deriving DecidableEq, Repr

/-- Rust's `str::parse::<i64>`: an optional sign followed by a nonempty
digit run, rejected when out of the 64-bit range. -/
def parseI64 (s : String) : Option Int :=
let digitsVal : List Char → Int := fun cs =>
  cs.foldl (fun a c => a * 10 + (Int.ofNat (c.toNat - 48))) 0
match s.data with
| [] => none
| c :: cs =>
  if c = '-' then
    if cs ≠ [] ∧ cs.all Char.isDigit then
      let v := digitsVal cs
      if -v ≥ -(2 ^ 63) then some (-v) else none
    else none
  else if c = '+' then
    if cs ≠ [] ∧ cs.all Char.isDigit then
      let v := digitsVal cs
      if v ≤ 2 ^ 63 - 1 then some v else none
    else none
  else
    if (c :: cs).all Char.isDigit then
      let v := digitsVal (c :: cs)
      if v ≤ 2 ^ 63 - 1 then some v else none
    else none

/-- Character class opening an identifier.  Modelled from the spec: a
letter or underscore. -/
def isIdentStart (c : Char) : Bool := c.isAlpha || c = '_'

/-- Character class continuing an identifier.  Modelled from the spec:
alphanumeric or underscore. -/
def isIdentChar (c : Char) : Bool := c.isAlphanum || c = '_'

/-- Keyword classification of an identifier run.  Modelled from the spec:
`let`, `fn`, `if`, `else`, `return`, `true`, `false` map to keyword
tokens, anything else is an identifier carrying the matched text. -/
def keywordOrIdent (s : String) : Token :=
if s = "let" then Token.Let
else if s = "fn" then Token.Function
else if s = "if" then Token.If
else if s = "else" then Token.Else
else if s = "return" then Token.Return
else if s = "true" then Token.True
else if s = "false" then Token.False
else Token.Identifier s

/-- Single-character punctuation and operator tokens.  Modelled from the
spec: remaining single characters map one-to-one; an unrecognized
character produces no token. -/
def singleCharToken (c : Char) : Option Token :=
if c = '+' then some Token.Plus
else if c = '-' then some Token.Minus
else if c = '*' then some Token.Asterisk
else if c = '/' then some Token.Slash
else if c = '<' then some Token.LT
else if c = '>' then some Token.GT
else if c = ',' then some Token.Comma
else if c = ';' then some Token.Semicolon
else if c = '(' then some Token.LParen
else if c = ')' then some Token.RParen
else if c = '\x7b' then some Token.LBrace
else if c = '\x7d' then some Token.RBrace
else none

/-- Lexer.  Modelled from the spec: skip whitespace (space, tab, newline,
carriage return); a letter or underscore opens a maximal
alphanumeric/underscore run classified by `keywordOrIdent`; a digit opens
a maximal digit run emitted as an integer literal carrying the raw text;
`==` and `!=` are recognized by one character of peeking before falling
back to `=` and `!`; other single characters map through
`singleCharToken`, unrecognized ones being skipped.  The fuel is spent
once per emitted-or-skipped unit; since every unit consumes at least one
character, fuel equal to the character count is always enough (proved
below). -/
def tokenizeF : Nat → List Char → List Token
| 0, _ => []
| _ + 1, [] => []
| fuel + 1, c :: cs =>
  if c = ' ' ∨ c = '\t' ∨ c = '\n' ∨ c = '\r' then
    tokenizeF fuel cs
  else if isIdentStart c then
    keywordOrIdent (String.mk ((c :: cs).takeWhile isIdentChar)) ::
      tokenizeF fuel ((c :: cs).dropWhile isIdentChar)
  else if c.isDigit then
    Token.Integer (String.mk ((c :: cs).takeWhile Char.isDigit)) ::
      tokenizeF fuel ((c :: cs).dropWhile Char.isDigit)
  else if c = '=' then
    match cs with
    | '=' :: cs' => Token.Eq :: tokenizeF fuel cs'
    | _ => Token.Assign :: tokenizeF fuel cs
  else if c = '!' then
    match cs with
    | '=' :: cs' => Token.NotEq :: tokenizeF fuel cs'
    | _ => Token.Bang :: tokenizeF fuel cs
  else
    match singleCharToken c with
    | some t => t :: tokenizeF fuel cs
    | none => tokenizeF fuel cs

/-- Tokenization of a character list, with the (sufficient) linear fuel. -/
def tokenize (cs : List Char) : List Token := tokenizeF cs.length cs

/-- Tokenization of a source string. -/
def lex (s : String) : List Token := tokenize s.data

/-- The token the active parse function is examining (`current_token`);
after exhaustion the lexer returns the end marker forever, hence the
default. -/
def currentToken (ts : List Token) : Token := ts.headD Token.EOF

/-- The one token of lookahead (`peeking_token`). -/
def peekingToken (ts : List Token) : Token := ts.tail.headD Token.EOF

/-- Shift `peeking_token` into `current_token` and draw a fresh token
(`Parser::next_token`). -/
def nextToken (ts : List Token) : List Token := ts.tail

/-- Result of one fallible parse step: the `Result` value together with
the parser state reached (kept even on error, as the Rust state lives in
`&mut self`). -/
abbrev PResult (α : Type) := Except ParserError α × List Token

/-- Sequencing with the `?` operator: an error short-circuits but keeps
the state at which it occurred. -/
def pbind (x : Option (PResult α)) (f : α → List Token → Option (PResult β)) :
    Option (PResult β) :=
match x with
| none => none
| some (Except.error e, ts) => some (Except.error e, ts)
| some (Except.ok a, ts) => f a ts

/-- The `expect_peek!` macro: if the lookahead is the expected token,
advance and succeed, otherwise fail without advancing. -/
def expectPeek (t : Token) (ts : List Token) : PResult Unit :=
if peekingToken ts = t then (Except.ok (), nextToken ts)
else (Except.error ParserError.mk, ts)

/-- Resynchronization (`Parser::advance_tokens`): advance until a `;` is
consumed or the end marker is reached. -/
def advanceTokens : List Token → List Token
| [] => []
| t :: rest =>
  if t = Token.Semicolon then rest
  else if t = Token.EOF then t :: rest
  else advanceTokens rest

/-- The parameter-list loop of `Parser::parse_function_params`: while the
current token is an identifier, record it and advance, additionally
skipping one comma when the token after the identifier is a comma. -/
def parseParamsLoop : List Token → List Expression × List Token
| Token.Identifier s :: Token.Comma :: rest =>
  let r := parseParamsLoop rest
  (Expression.Identifier s :: r.1, r.2)
| Token.Identifier s :: rest =>
  let r := parseParamsLoop rest
  (Expression.Identifier s :: r.1, r.2)
| ts => ([], ts)

/-- `Parser::parse_function_params`: an immediately closing `)` gives the
empty list; otherwise advance once and run the identifier loop.  The
function never fails. -/
def parseFunctionParams (ts : List Token) : PResult (List Expression) :=
if peekingToken ts = Token.RParen then (Except.ok [], nextToken ts)
else
  let r := parseParamsLoop (nextToken ts)
  (Except.ok r.1, r.2)

/-- `Parser::parse_boolean`: the current token read as a boolean literal. -/
def parseBoolean (ts : List Token) : Except ParserError Expression :=
match currentToken ts with
| Token.True => Except.ok (Expression.Bool true)
| Token.False => Except.ok (Expression.Bool false)
| _ => Except.error ParserError.mk

/-- `Parser::parse_integer`: the literal's text parsed as a 64-bit
integer, a failed parse being a parse error. -/
def parseInteger (literal : String) : Except ParserError Expression :=
match parseI64 literal with
| some n => Except.ok (Expression.Int n)
| none => Except.error ParserError.mk

mutual

/-- `Parser::parse_statement`: dispatch on the current token. -/
def parseStatementF : Nat → List Token → Option (PResult Statement)
| 0, _ => none
| fuel + 1, ts =>
  match currentToken ts with
  | Token.Let => parseLetStatementF fuel ts
  | Token.Return => parseReturnStatementF fuel ts
  | _ => parseExpressionStatementF fuel ts

/-- `Parser::parse_let_statement`: advance past `let`, require an
identifier, require `=` at the lookahead, then parse the value
expression. -/
def parseLetStatementF : Nat → List Token → Option (PResult Statement)
| 0, _ => none
| fuel + 1, ts =>
  let ts1 := nextToken ts
  match currentToken ts1 with
  | Token.Identifier name =>
    match expectPeek Token.Assign ts1 with
    | (Except.error e, ts2) => some (Except.error e, ts2)
    | (Except.ok _, ts2) =>
      let ts3 := nextToken ts2
      pbind (parseExpressionF fuel Precedence.LOWEST ts3) fun value ts4 =>
        some (Except.ok (Statement.Let name value), ts4)
  | _ => some (Except.error ParserError.mk, ts1)

/-- `Parser::parse_return_statement`: advance past `return` and parse the
value expression. -/
def parseReturnStatementF : Nat → List Token → Option (PResult Statement)
| 0, _ => none
| fuel + 1, ts =>
  let ts1 := nextToken ts
  pbind (parseExpressionF fuel Precedence.LOWEST ts1) fun value ts2 =>
    some (Except.ok (Statement.Return value), ts2)

/-- `Parser::parse_expression_statement`: parse one expression and
consume an optional trailing `;`. -/
def parseExpressionStatementF : Nat → List Token → Option (PResult Statement)
| 0, _ => none
| fuel + 1, ts =>
  pbind (parseExpressionF fuel Precedence.LOWEST ts) fun value ts1 =>
    if peekingToken ts1 = Token.Semicolon then
      some (Except.ok (Statement.Expression value), nextToken ts1)
    else
      some (Except.ok (Statement.Expression value), ts1)

/-- `Parser::parse_expression`: one prefix form, then the
precedence-climbing loop. -/
def parseExpressionF : Nat → Precedence → List Token → Option (PResult Expression)
| 0, _, _ => none
| fuel + 1, precedence, ts =>
  pbind (parsePrefixF fuel ts) fun lhs ts1 =>
    parseExprLoopF fuel precedence lhs ts1

/-- The `while` loop of `Parser::parse_expression`: while the lookahead
is not `;` and binds strictly tighter than the floor, advance and run the
infix continuation on the accumulated left-hand side. -/
def parseExprLoopF : Nat → Precedence → Expression → List Token →
    Option (PResult Expression)
| 0, _, _, _ => none
| fuel + 1, precedence, lhs, ts =>
  if peekingToken ts ≠ Token.Semicolon ∧
      precedence < Precedence.fromTok (peekingToken ts) then
    pbind (parseInfixF fuel lhs (nextToken ts)) fun lhs' ts' =>
      parseExprLoopF fuel precedence lhs' ts'
  else
    some (Except.ok lhs, ts)

/-- `Parser::parse_prefix`: the prefix-position dispatch; a token with no
prefix rule is a parse error. -/
def parsePrefixF : Nat → List Token → Option (PResult Expression)
| 0, _ => none
| fuel + 1, ts =>
  match currentToken ts with
  | Token.Identifier s => some (Except.ok (Expression.Identifier s), ts)
  | Token.Integer literal => some (parseInteger literal, ts)
  | Token.LParen => parseGroupedExpressionF fuel ts
  | Token.True => some (parseBoolean ts, ts)
  | Token.False => some (parseBoolean ts, ts)
  | Token.Bang => parsePrefixExpressionF fuel ts
  | Token.Minus => parsePrefixExpressionF fuel ts
  | Token.If => parseIfExpressionF fuel ts
  | Token.Function => parseFunctionLiteralF fuel ts
  | _ => some (Except.error ParserError.mk, ts)

/-- `Parser::parse_grouped_expression`: advance past `(`, parse the inner
expression (its failure is not propagated before the `)` check), then
require `)` at the lookahead. -/
def parseGroupedExpressionF : Nat → List Token → Option (PResult Expression)
| 0, _ => none
| fuel + 1, ts =>
  let ts1 := nextToken ts
  match parseExpressionF fuel Precedence.LOWEST ts1 with
  | none => none
  | some (res, ts2) =>
    match expectPeek Token.RParen ts2 with
    | (Except.error e, ts3) => some (Except.error e, ts3)
    | (Except.ok _, ts3) => some (res, ts3)

/-- `Parser::parse_prefix_expression`: read the unary operator, advance,
and parse the operand at PREFIX precedence. -/
def parsePrefixExpressionF : Nat → List Token → Option (PResult Expression)
| 0, _ => none
| fuel + 1, ts =>
  match currentToken ts with
  | Token.Bang =>
    pbind (parseExpressionF fuel Precedence.PREFIX (nextToken ts)) fun e ts2 =>
      some (Except.ok (Expression.Prefix PrefixOperator.Not e), ts2)
  | Token.Minus =>
    pbind (parseExpressionF fuel Precedence.PREFIX (nextToken ts)) fun e ts2 =>
      some (Except.ok (Expression.Prefix PrefixOperator.Negative e), ts2)
  | _ => some (Except.error ParserError.mk, ts)

/-- `Parser::parse_infix`: read the operator at the current token,
advance, and parse the right-hand side at that operator's own precedence;
`(` in infix position is a call. -/
def parseInfixF : Nat → Expression → List Token → Option (PResult Expression)
| 0, _, _ => none
| fuel + 1, lhs, ts =>
  let precedence := Precedence.fromTok (currentToken ts)
  match currentToken ts with
  | Token.Eq =>
    pbind (parseExpressionF fuel precedence (nextToken ts)) fun rhs ts2 =>
      some (Except.ok (Expression.Infix InfixOperator.Equal lhs rhs), ts2)
  | Token.NotEq =>
    pbind (parseExpressionF fuel precedence (nextToken ts)) fun rhs ts2 =>
      some (Except.ok (Expression.Infix InfixOperator.NotEqual lhs rhs), ts2)
  | Token.Plus =>
    pbind (parseExpressionF fuel precedence (nextToken ts)) fun rhs ts2 =>
      some (Except.ok (Expression.Infix InfixOperator.Add lhs rhs), ts2)
  | Token.Minus =>
    pbind (parseExpressionF fuel precedence (nextToken ts)) fun rhs ts2 =>
      some (Except.ok (Expression.Infix InfixOperator.Sub lhs rhs), ts2)
  | Token.Asterisk =>
    pbind (parseExpressionF fuel precedence (nextToken ts)) fun rhs ts2 =>
      some (Except.ok (Expression.Infix InfixOperator.Mult lhs rhs), ts2)
  | Token.Slash =>
    pbind (parseExpressionF fuel precedence (nextToken ts)) fun rhs ts2 =>
      some (Except.ok (Expression.Infix InfixOperator.Div lhs rhs), ts2)
  | Token.GT =>
    pbind (parseExpressionF fuel precedence (nextToken ts)) fun rhs ts2 =>
      some (Except.ok (Expression.Infix InfixOperator.GreaterThan lhs rhs), ts2)
  | Token.LT =>
    pbind (parseExpressionF fuel precedence (nextToken ts)) fun rhs ts2 =>
      some (Except.ok (Expression.Infix InfixOperator.LessThan lhs rhs), ts2)
  | Token.LParen => parseCallExpressionF fuel lhs ts
  | _ => some (Except.error ParserError.mk, ts)

/-- `Parser::parse_call_expression`: parse the argument list and build
the call node. -/
def parseCallExpressionF : Nat → Expression → List Token → Option (PResult Expression)
| 0, _, _ => none
| fuel + 1, f, ts =>
  pbind (parseCallArgumentsF fuel ts) fun arguments ts1 =>
    some (Except.ok (Expression.Call f arguments), ts1)

/-- `Parser::parse_call_arguments`: an immediately closing `)` gives the
empty list; otherwise parse the first argument, run the comma loop, and
require `)` at the lookahead. -/
def parseCallArgumentsF : Nat → List Token → Option (PResult (List Expression))
| 0, _ => none
| fuel + 1, ts =>
  if peekingToken ts = Token.RParen then
    some (Except.ok [], nextToken ts)
  else
    pbind (parseExpressionF fuel Precedence.LOWEST (nextToken ts)) fun a ts2 =>
      pbind (parseCallArgsLoopF fuel [a] ts2) fun arguments ts3 =>
        match expectPeek Token.RParen ts3 with
        | (Except.error e, ts4) => some (Except.error e, ts4)
        | (Except.ok _, ts4) => some (Except.ok arguments, ts4)

/-- The comma loop of `Parser::parse_call_arguments`: while the lookahead
is a comma, advance twice and parse one more argument. -/
def parseCallArgsLoopF : Nat → List Expression → List Token →
    Option (PResult (List Expression))
| 0, _, _ => none
| fuel + 1, acc, ts =>
  if peekingToken ts = Token.Comma then
    pbind (parseExpressionF fuel Precedence.LOWEST (nextToken (nextToken ts)))
      fun a ts2 => parseCallArgsLoopF fuel (acc ++ [a]) ts2
  else
    some (Except.ok acc, ts)

/-- `Parser::parse_function_literal`: require `(` at the lookahead, parse
the parameter list, require `{` at the lookahead, and parse the body
block. -/
def parseFunctionLiteralF : Nat → List Token → Option (PResult Expression)
| 0, _ => none
| fuel + 1, ts =>
  match expectPeek Token.LParen ts with
  | (Except.error e, ts1) => some (Except.error e, ts1)
  | (Except.ok _, ts1) =>
    match parseFunctionParams ts1 with
    | (Except.error e, ts2) => some (Except.error e, ts2)
    | (Except.ok parameters, ts2) =>
      match expectPeek Token.LBrace ts2 with
      | (Except.error e, ts3) => some (Except.error e, ts3)
      | (Except.ok _, ts3) =>
        pbind (parseBlockStatementF fuel ts3) fun body ts4 =>
          some (Except.ok (Expression.Function parameters body), ts4)

/-- `Parser::parse_if_expression`: require `(`, parse the condition,
require `)` then `{`, parse the consequence block, and parse an `else`
block exactly when the lookahead after the consequence is `else`. -/
def parseIfExpressionF : Nat → List Token → Option (PResult Expression)
| 0, _ => none
| fuel + 1, ts =>
  match expectPeek Token.LParen ts with
  | (Except.error e, ts1) => some (Except.error e, ts1)
  | (Except.ok _, ts1) =>
    pbind (parseExpressionF fuel Precedence.LOWEST (nextToken ts1)) fun condition ts3 =>
      match expectPeek Token.RParen ts3 with
      | (Except.error e, ts4) => some (Except.error e, ts4)
      | (Except.ok _, ts4) =>
        match expectPeek Token.LBrace ts4 with
        | (Except.error e, ts5) => some (Except.error e, ts5)
        | (Except.ok _, ts5) =>
          pbind (parseBlockStatementF fuel ts5) fun consequence ts6 =>
            if peekingToken ts6 = Token.Else then
              match expectPeek Token.LBrace (nextToken ts6) with
              | (Except.error e, ts8) => some (Except.error e, ts8)
              | (Except.ok _, ts8) =>
                pbind (parseBlockStatementF fuel ts8) fun alternative ts9 =>
                  some (Except.ok
                    (Expression.If condition consequence (some alternative)), ts9)
            else
              some (Except.ok (Expression.If condition consequence none), ts6)

/-- `Parser::parse_block_statement`: advance past `{` and run the block
loop. -/
def parseBlockStatementF : Nat → List Token → Option (PResult (List Statement))
| 0, _ => none
| fuel + 1, ts => parseBlockLoopF fuel [] (nextToken ts)

/-- The `while` loop of `Parser::parse_block_statement`: until the
current token is `}` or the end marker, parse one statement (failure
propagates) and advance. -/
def parseBlockLoopF : Nat → List Statement → List Token →
    Option (PResult (List Statement))
| 0, _, _ => none
| fuel + 1, acc, ts =>
  if currentToken ts ≠ Token.RBrace ∧ currentToken ts ≠ Token.EOF then
    pbind (parseStatementF fuel ts) fun s ts1 =>
      parseBlockLoopF fuel (acc ++ [s]) (nextToken ts1)
  else
    some (Except.ok acc, ts)

/-- `Parser::parse_program`: until the current token is the end marker,
parse one statement, appending it to the program on success and the error
to the error list on failure, and resynchronize with `advanceTokens` in
both cases. -/
def parseProgramF : Nat → List Token → Option (Program × List ParserError)
| 0, _ => none
| fuel + 1, ts =>
  if currentToken ts = Token.EOF then some (⟨[]⟩, [])
  else
    match parseStatementF fuel ts with
    | none => none
    | some (res, ts') =>
      match parseProgramF fuel (advanceTokens ts') with
      | none => none
      | some (prog, errs) =>
        match res with
        | Except.ok s => some (⟨s :: prog.statements⟩, errs)
        | Except.error e => some (prog, e :: errs)

end

/-- Fuel linear in the token count; the sufficiency theorem below shows
it is always enough for every function of the parser. -/
def FUEL (ts : List Token) : Nat := 11 * ts.length + 11

/-- `Parser::parse_program` with its sufficient fuel: the program and the
error list.  The `getD` default is dead code by the sufficiency
theorem. -/
def parseProgram (ts : List Token) : Program × List ParserError :=
(parseProgramF (FUEL ts) ts).getD (⟨[]⟩, [])

/-- `Parser::parse_statement` with its sufficient fuel. -/
def parseStatement (ts : List Token) : PResult Statement :=
(parseStatementF (FUEL ts) ts).getD (Except.error ParserError.mk, ts)

/-- Textual form of a prefix operator. -/
def prefixOperatorStr : PrefixOperator → String
| .Not => "!"
| .Negative => "-"

/-- Textual form of an infix operator. -/
def infixOperatorStr : InfixOperator → String
| .Add => "+"
| .Sub => "-"
| .Mult => "*"
| .Div => "/"
| .Equal => "=="
| .NotEqual => "!="
| .GreaterThan => ">"
| .LessThan => "<"

mutual

/-- Canonical rendering of an expression.  Modelled from the spec: infix
expressions render as `(left op right)` and prefix expressions as
`(op operand)`; identifiers, integers and booleans render as their text.
The remaining node kinds (unspecified by the spec and unused by the
theorems) follow the conventional Monkey rendering. -/
def renderExpr : Expression → String
| .Identifier s => s
| .Int n => toString n
| .Bool b => if b then "true" else "false"
| .Prefix op operand => "(" ++ prefixOperatorStr op ++ renderExpr operand ++ ")"
| .Infix op l r =>
  "(" ++ renderExpr l ++ " " ++ infixOperatorStr op ++ " " ++ renderExpr r ++ ")"
| .If c cons alt =>
  "if" ++ renderExpr c ++ " \x7b " ++ renderStmts cons ++ " \x7d" ++
    (match alt with
     | none => ""
     | some a => " else \x7b " ++ renderStmts a ++ " \x7d")
| .Function ps body =>
  "fn(" ++ String.intercalate ", " (renderExprs ps) ++ ") \x7b " ++
    renderStmts body ++ " \x7d"
| .Call f args =>
  renderExpr f ++ "(" ++ String.intercalate ", " (renderExprs args) ++ ")"

/-- Canonical renderings of an expression list. -/
def renderExprs : List Expression → List String
| [] => []
| e :: rest => renderExpr e :: renderExprs rest

/-- Canonical rendering of a statement. -/
def renderStmt : Statement → String
| .Let name value => "let " ++ name ++ " = " ++ renderExpr value ++ ";"
| .Return value => "return " ++ renderExpr value ++ ";"
| .Expression value => renderExpr value

/-- Canonical rendering of a statement sequence. -/
def renderStmts : List Statement → String
| [] => ""
| [s] => renderStmt s
| s :: rest => renderStmt s ++ " " ++ renderStmts rest

end

/-- Rendering of a program: the statements’ renderings joined by
newlines (the deterministic textual form the tests assert against). -/
def Program.render (p : Program) : String :=
String.intercalate "\n" (p.statements.map renderStmt)

/-- The table of infix operator tokens and the AST operators they build,
exactly the cases of `Parser::parse_infix`. -/
def infixOpTable : List (Token × InfixOperator) :=
[(Token.Plus, InfixOperator.Add), (Token.Minus, InfixOperator.Sub),
 (Token.Asterisk, InfixOperator.Mult), (Token.Slash, InfixOperator.Div),
 (Token.Eq, InfixOperator.Equal), (Token.NotEq, InfixOperator.NotEqual),
 (Token.GT, InfixOperator.GreaterThan), (Token.LT, InfixOperator.LessThan)]

/-- The single-statement inputs of the precedence test
(`tests::test_precedences`), i.e. all of its cases except the
two-statement input. -/
def precedenceSingles : List String :=
["-a * b", "!-a", "a + b + c", "a + b - c", "a * b * c", "a * b / c",
 "a + b / c", "a + b * c + d / e - f", "5 > 4 == 3 < 4", "5 < 4 != 3 > 4",
 "3 + 4 * 5 == 3 * 1 + 4 * 5", "true", "false", "3 > 5 == false",
 "3 < 5 == true", "1 + (2 + 3) + 4", "(5 + 5) * 2", "2 / (5 + 5)",
 "-(5 + 5)", "!(true == true)"]

/-- A parse step only discards tokens from the front of the stream. -/
def SuffixSpec {α : Type} (f : List Token → Option (PResult α)) : Prop :=
∀ ts r ts', f ts = some (r, ts') → ts' <:+ ts

/-- Raising the fuel preserves any already-computed result. -/
def MonoSpec {α : Type} (fn fm : List Token → Option (PResult α)) : Prop :=
∀ ts r ts', fn ts = some (r, ts') → fm ts = some (r, ts')

/-- Advancing drops one token. -/
theorem nextToken_suffix (ts : List Token) : nextToken ts <:+ ts :=
List.tail_suffix ts

theorem nextToken_length_le (ts : List Token) :
    (nextToken ts).length ≤ ts.length := by
exact (List.tail_suffix ts).length_le

theorem nextToken_length_lt (ts : List Token) (h : ts ≠ []) :
    (nextToken ts).length < ts.length := by
cases ts with
| nil => exact absurd rfl h
| cons t rest => simp [nextToken]

/-- A non-end-marker lookahead needs at least two tokens in the stream. -/
theorem two_le_length_of_peek_ne (ts : List Token)
    (h : peekingToken ts ≠ Token.EOF) : 2 ≤ ts.length := by
cases ts with
| nil => exact absurd rfl h
| cons t rest =>
  cases rest with
  | nil => exact absurd rfl h
  | cons t' rest' => simp

/-- A non-end-marker current token needs a nonempty stream. -/
theorem ne_nil_of_current_ne (ts : List Token)
    (h : currentToken ts ≠ Token.EOF) : ts ≠ [] := by
cases ts with
| nil => exact absurd rfl h
| cons t rest => simp

/-- Nothing binds strictly tighter than nothing: `LOWEST` is the least
precedence level. -/
theorem not_lt_LOWEST (p : Precedence) : ¬ p < Precedence.LOWEST :=
fun h => Nat.not_lt_zero _ h

/-- A lookahead satisfying the precedence-climbing guard is an operator
token, hence not the end marker. -/
theorem peek_ne_EOF_of_guard (p : Precedence) (ts : List Token)
    (h : p < Precedence.fromTok (peekingToken ts)) :
    peekingToken ts ≠ Token.EOF := by
intro he
rw [he] at h
exact not_lt_LOWEST p h

/-- Inversion of the `?`-sequencing. -/
theorem pbind_eq_some {α β : Type} {x : Option (PResult α)}
    {f : α → List Token → Option (PResult β)} {r : Except ParserError β}
    {ts' : List Token} (h : pbind x f = some (r, ts')) :
    (∃ e ts0, x = some (Except.error e, ts0) ∧ r = Except.error e ∧ ts' = ts0) ∨
    (∃ a ts0, x = some (Except.ok a, ts0) ∧ f a ts0 = some (r, ts')) := by
match x with
| none => simp [pbind] at h
| some (Except.error e, ts0) =>
  left
  simp [pbind] at h
  exact ⟨e, ts0, rfl, h.1.symm, h.2.symm⟩
| some (Except.ok a, ts0) =>
  right
  exact ⟨a, ts0, rfl, h⟩

/-- Resynchronization only discards tokens from the front. -/
theorem advanceTokens_suffix (ts : List Token) : advanceTokens ts <:+ ts := by
induction ts with
| nil => simp [advanceTokens]
| cons t rest ih =>
  simp only [advanceTokens]
  by_cases h1 : t = Token.Semicolon
  · simp [h1]
  · by_cases h2 : t = Token.EOF
    · simp [h1, h2]
    · simp only [h1, h2, if_false]
      exact ih.trans (List.suffix_cons t rest)

/-- Resynchronization from a non-end-marker current token strictly
consumes. -/
theorem advanceTokens_length_lt (ts : List Token)
    (h : currentToken ts ≠ Token.EOF) :
    (advanceTokens ts).length < ts.length := by
cases ts with
| nil => exact absurd rfl h
| cons t rest =>
  have ht : t ≠ Token.EOF := by simpa [currentToken] using h
  simp only [advanceTokens, ht, if_false]
  by_cases h1 : t = Token.Semicolon
  · simp [h1]
  · simp only [h1, if_false]
    exact Nat.lt_succ_of_le (advanceTokens_suffix rest).length_le

/-- The identifier loop of the parameter list only discards tokens from
the front. -/
theorem parseParamsLoop_suffix (ts : List Token) :
    (parseParamsLoop ts).2 <:+ ts := by
induction ts using parseParamsLoop.induct with
| case1 s rest ih =>
  simp only [parseParamsLoop]
  exact ih.trans ((List.suffix_cons _ _).trans (List.suffix_cons _ _))
| case2 s rest hne ih =>
  simp only [parseParamsLoop, hne]
  exact ih.trans (List.suffix_cons _ _)
| case3 ts h1 h2 => simp [parseParamsLoop, h1, h2]

/-- The `expect_peek!` macro only discards tokens from the front. -/
theorem expectPeek_suffix (t : Token) (ts : List Token) :
    (expectPeek t ts).2 <:+ ts := by
unfold expectPeek
split
· exact nextToken_suffix ts
· exact List.suffix_refl ts

/-- The parameter list parse only discards tokens from the front. -/
theorem parseFunctionParams_suffix (ts : List Token) :
    (parseFunctionParams ts).2 <:+ ts := by
unfold parseFunctionParams
split
· exact nextToken_suffix ts
· exact (parseParamsLoop_suffix (nextToken ts)).trans (nextToken_suffix ts)

theorem suffixStep_let {fuel : Nat}
    (ihExp : ∀ p, SuffixSpec (parseExpressionF fuel p)) :
    SuffixSpec (parseLetStatementF (fuel + 1)) := by
intro ts r ts' h
simp only [parseLetStatementF] at h
split at h
· split at h
  · injection h with h
    injection h with h1 h2
    subst h2
    next heq =>
    have h3 := expectPeek_suffix Token.Assign (nextToken ts)
    rw [heq] at h3
    exact h3.trans (nextToken_suffix ts)
  · next u ts2 heq =>
    rcases pbind_eq_some h with ⟨e, ts0, hx, hr, rfl⟩ | ⟨a, ts0, hx, hf⟩
    · have h3 := expectPeek_suffix Token.Assign (nextToken ts)
      rw [heq] at h3
      exact ((ihExp _ _ _ _ hx).trans (nextToken_suffix ts2)).trans
        (h3.trans (nextToken_suffix ts))
    · injection hf with hf
      injection hf with h1 h2
      subst h2
      have h3 := expectPeek_suffix Token.Assign (nextToken ts)
      rw [heq] at h3
      exact ((ihExp _ _ _ _ hx).trans (nextToken_suffix ts2)).trans
        (h3.trans (nextToken_suffix ts))
· injection h with h
  injection h with h1 h2
  subst h2
  exact nextToken_suffix ts

theorem suffixStep_return {fuel : Nat}
    (ihExp : ∀ p, SuffixSpec (parseExpressionF fuel p)) :
    SuffixSpec (parseReturnStatementF (fuel + 1)) := by
intro ts r ts' h
simp only [parseReturnStatementF] at h
rcases pbind_eq_some h with ⟨e, ts0, hx, hr, rfl⟩ | ⟨a, ts0, hx, hf⟩
· exact (ihExp _ _ _ _ hx).trans (nextToken_suffix ts)
· injection hf with hf
  injection hf with h1 h2
  subst h2
  exact (ihExp _ _ _ _ hx).trans (nextToken_suffix ts)

theorem suffixStep_exprStmt {fuel : Nat}
    (ihExp : ∀ p, SuffixSpec (parseExpressionF fuel p)) :
    SuffixSpec (parseExpressionStatementF (fuel + 1)) := by
intro ts r ts' h
simp only [parseExpressionStatementF] at h
rcases pbind_eq_some h with ⟨e, ts0, hx, hr, rfl⟩ | ⟨a, ts0, hx, hf⟩
· exact ihExp _ _ _ _ hx
· split at hf
  · injection hf with hf
    injection hf with h1 h2
    subst h2
    exact (nextToken_suffix ts0).trans (ihExp _ _ _ _ hx)
  · injection hf with hf
    injection hf with h1 h2
    subst h2
    exact ihExp _ _ _ _ hx

theorem suffixStep_expression {fuel : Nat}
    (ihPre : SuffixSpec (parsePrefixF fuel))
    (ihLoop : ∀ p lhs, SuffixSpec (parseExprLoopF fuel p lhs)) :
    ∀ p, SuffixSpec (parseExpressionF (fuel + 1) p) := by
intro p ts r ts' h
simp only [parseExpressionF] at h
rcases pbind_eq_some h with ⟨e, ts0, hx, hr, rfl⟩ | ⟨a, ts0, hx, hf⟩
· exact ihPre _ _ _ hx
· exact (ihLoop _ _ _ _ _ hf).trans (ihPre _ _ _ hx)

theorem suffixStep_exprLoop {fuel : Nat}
    (ihInf : ∀ lhs, SuffixSpec (parseInfixF fuel lhs))
    (ihLoop : ∀ p lhs, SuffixSpec (parseExprLoopF fuel p lhs)) :
    ∀ p lhs, SuffixSpec (parseExprLoopF (fuel + 1) p lhs) := by
intro p lhs ts r ts' h
simp only [parseExprLoopF] at h
split at h
· rcases pbind_eq_some h with ⟨e, ts0, hx, hr, rfl⟩ | ⟨a, ts0, hx, hf⟩
  · exact (ihInf _ _ _ _ hx).trans (nextToken_suffix ts)
  · exact ((ihLoop _ _ _ _ _ hf).trans (ihInf _ _ _ _ hx)).trans
      (nextToken_suffix ts)
· injection h with h
  injection h with h1 h2
  subst h2
  exact List.suffix_refl ts

theorem suffixStep_prefixFn {fuel : Nat}
    (ihGrp : SuffixSpec (parseGroupedExpressionF fuel))
    (ihPrfE : SuffixSpec (parsePrefixExpressionF fuel))
    (ihIf : SuffixSpec (parseIfExpressionF fuel))
    (ihFn : SuffixSpec (parseFunctionLiteralF fuel)) :
    SuffixSpec (parsePrefixF (fuel + 1)) := by
intro ts r ts' h
simp only [parsePrefixF] at h
split at h
all_goals
  first
  | exact ihGrp _ _ _ h
  | exact ihPrfE _ _ _ h
  | exact ihIf _ _ _ h
  | exact ihFn _ _ _ h
  | (injection h with h
     injection h with h1 h2
     subst h2
     exact List.suffix_refl ts)

theorem suffixStep_grouped {fuel : Nat}
    (ihExp : ∀ p, SuffixSpec (parseExpressionF fuel p)) :
    SuffixSpec (parseGroupedExpressionF (fuel + 1)) := by
intro ts r ts' h
simp only [parseGroupedExpressionF] at h
split at h
· exact absurd h (by simp)
· next res ts2 heq =>
  have h2 : ts2 <:+ ts := (ihExp _ _ _ _ heq).trans (nextToken_suffix ts)
  split at h
  all_goals
    next heq2 =>
    injection h with h
    injection h with h1 h3
    subst h3
    have h4 := expectPeek_suffix Token.RParen ts2
    rw [heq2] at h4
    exact h4.trans h2

theorem suffixStep_prefixExpr {fuel : Nat}
    (ihExp : ∀ p, SuffixSpec (parseExpressionF fuel p)) :
    SuffixSpec (parsePrefixExpressionF (fuel + 1)) := by
intro ts r ts' h
simp only [parsePrefixExpressionF] at h
split at h
all_goals
  first
  | (rcases pbind_eq_some h with ⟨e, ts0, hx, hr, rfl⟩ | ⟨a, ts0, hx, hf⟩
     · exact (ihExp _ _ _ _ hx).trans (nextToken_suffix ts)
     · injection hf with hf
       injection hf with h1 h2
       subst h2
       exact (ihExp _ _ _ _ hx).trans (nextToken_suffix ts))
  | (injection h with h
     injection h with h1 h2
     subst h2
     exact List.suffix_refl ts)

theorem suffixStep_infix {fuel : Nat}
    (ihExp : ∀ p, SuffixSpec (parseExpressionF fuel p))
    (ihCallE : ∀ lhs, SuffixSpec (parseCallExpressionF fuel lhs)) :
    ∀ lhs, SuffixSpec (parseInfixF (fuel + 1) lhs) := by
intro lhs ts r ts' h
simp only [parseInfixF] at h
split at h
all_goals
  first
  | exact ihCallE _ _ _ _ h
  | (rcases pbind_eq_some h with ⟨e, ts0, hx, hr, rfl⟩ | ⟨a, ts0, hx, hf⟩
     · exact (ihExp _ _ _ _ hx).trans (nextToken_suffix ts)
     · injection hf with hf
       injection hf with h1 h2
       subst h2
       exact (ihExp _ _ _ _ hx).trans (nextToken_suffix ts))
  | (injection h with h
     injection h with h1 h2
     subst h2
     exact List.suffix_refl ts)

theorem suffixStep_callExpr {fuel : Nat}
    (ihCallA : SuffixSpec (parseCallArgumentsF fuel)) :
    ∀ lhs, SuffixSpec (parseCallExpressionF (fuel + 1) lhs) := by
intro lhs ts r ts' h
simp only [parseCallExpressionF] at h
rcases pbind_eq_some h with ⟨e, ts0, hx, hr, rfl⟩ | ⟨a, ts0, hx, hf⟩
· exact ihCallA _ _ _ hx
· injection hf with hf
  injection hf with h1 h2
  subst h2
  exact ihCallA _ _ _ hx

theorem suffixStep_callArgs {fuel : Nat}
    (ihExp : ∀ p, SuffixSpec (parseExpressionF fuel p))
    (ihArgsL : ∀ acc, SuffixSpec (parseCallArgsLoopF fuel acc)) :
    SuffixSpec (parseCallArgumentsF (fuel + 1)) := by
intro ts r ts' h
simp only [parseCallArgumentsF] at h
split at h
· injection h with h
  injection h with h1 h2
  subst h2
  exact nextToken_suffix ts
· rcases pbind_eq_some h with ⟨e, ts0, hx, hr, rfl⟩ | ⟨a, ts0, hx, hf⟩
  · exact (ihExp _ _ _ _ hx).trans (nextToken_suffix ts)
  · have h2 : ts0 <:+ ts := (ihExp _ _ _ _ hx).trans (nextToken_suffix ts)
    rcases pbind_eq_some hf with ⟨e, ts3, hx2, hr2, rfl⟩ | ⟨args, ts3, hx2, hf2⟩
    · exact (ihArgsL _ _ _ _ hx2).trans h2
    · have h3 : ts3 <:+ ts := (ihArgsL _ _ _ _ hx2).trans h2
      split at hf2
      all_goals
        next heq2 =>
        injection hf2 with hf2
        injection hf2 with h4 h5
        subst h5
        have h6 := expectPeek_suffix Token.RParen ts3
        rw [heq2] at h6
        exact h6.trans h3

theorem suffixStep_argsLoop {fuel : Nat}
    (ihExp : ∀ p, SuffixSpec (parseExpressionF fuel p))
    (ihArgsL : ∀ acc, SuffixSpec (parseCallArgsLoopF fuel acc)) :
    ∀ acc, SuffixSpec (parseCallArgsLoopF (fuel + 1) acc) := by
intro acc ts r ts' h
simp only [parseCallArgsLoopF] at h
split at h
· rcases pbind_eq_some h with ⟨e, ts0, hx, hr, rfl⟩ | ⟨a, ts0, hx, hf⟩
  · exact (ihExp _ _ _ _ hx).trans
      ((nextToken_suffix (nextToken ts)).trans (nextToken_suffix ts))
  · exact ((ihArgsL _ _ _ _ hf).trans (ihExp _ _ _ _ hx)).trans
      ((nextToken_suffix (nextToken ts)).trans (nextToken_suffix ts))
· injection h with h
  injection h with h1 h2
  subst h2
  exact List.suffix_refl ts

theorem suffixStep_funcLit {fuel : Nat}
    (ihBlk : SuffixSpec (parseBlockStatementF fuel)) :
    SuffixSpec (parseFunctionLiteralF (fuel + 1)) := by
intro ts r ts' h
simp only [parseFunctionLiteralF] at h
split at h
· next heq =>
  injection h with h
  injection h with h1 h2
  subst h2
  have h3 := expectPeek_suffix Token.LParen ts
  rw [heq] at h3
  exact h3
· next u ts1 heq =>
  have hts1 : ts1 <:+ ts := by
    have h3 := expectPeek_suffix Token.LParen ts
    rw [heq] at h3
    exact h3
  split at h
  · next heq2 =>
    injection h with h
    injection h with h1 h2
    subst h2
    have h3 := parseFunctionParams_suffix ts1
    rw [heq2] at h3
    exact h3.trans hts1
  · next ps ts2 heq2 =>
    have hts2 : ts2 <:+ ts := by
      have h3 := parseFunctionParams_suffix ts1
      rw [heq2] at h3
      exact h3.trans hts1
    split at h
    · next heq3 =>
      injection h with h
      injection h with h1 h2
      subst h2
      have h3 := expectPeek_suffix Token.LBrace ts2
      rw [heq3] at h3
      exact h3.trans hts2
    · next u2 ts3 heq3 =>
      have hts3 : ts3 <:+ ts := by
        have h3 := expectPeek_suffix Token.LBrace ts2
        rw [heq3] at h3
        exact h3.trans hts2
      rcases pbind_eq_some h with ⟨e, ts0, hx, hr, rfl⟩ | ⟨a, ts0, hx, hf⟩
      · exact (ihBlk _ _ _ hx).trans hts3
      · injection hf with hf
        injection hf with h1 h2
        subst h2
        exact (ihBlk _ _ _ hx).trans hts3

theorem suffixStep_if {fuel : Nat}
    (ihExp : ∀ p, SuffixSpec (parseExpressionF fuel p))
    (ihBlk : SuffixSpec (parseBlockStatementF fuel)) :
    SuffixSpec (parseIfExpressionF (fuel + 1)) := by
intro ts r ts' h
simp only [parseIfExpressionF] at h
split at h
· next heq =>
  injection h with h
  injection h with h1 h2
  subst h2
  have h3 := expectPeek_suffix Token.LParen ts
  rw [heq] at h3
  exact h3
· next u ts1 heq =>
  have hts1 : ts1 <:+ ts := by
    have h3 := expectPeek_suffix Token.LParen ts
    rw [heq] at h3
    exact h3
  rcases pbind_eq_some h with ⟨e, ts0, hx, hr, rfl⟩ | ⟨c, ts3, hx, hf⟩
  · exact ((ihExp _ _ _ _ hx).trans (nextToken_suffix ts1)).trans hts1
  · have hts3 : ts3 <:+ ts :=
      ((ihExp _ _ _ _ hx).trans (nextToken_suffix ts1)).trans hts1
    split at hf
    · next heq2 =>
      injection hf with hf
      injection hf with h1 h2
      subst h2
      have h3 := expectPeek_suffix Token.RParen ts3
      rw [heq2] at h3
      exact h3.trans hts3
    · next u2 ts4 heq2 =>
      have hts4 : ts4 <:+ ts := by
        have h3 := expectPeek_suffix Token.RParen ts3
        rw [heq2] at h3
        exact h3.trans hts3
      split at hf
      · next heq3 =>
        injection hf with hf
        injection hf with h1 h2
        subst h2
        have h3 := expectPeek_suffix Token.LBrace ts4
        rw [heq3] at h3
        exact h3.trans hts4
      · next u3 ts5 heq3 =>
        have hts5 : ts5 <:+ ts := by
          have h3 := expectPeek_suffix Token.LBrace ts4
          rw [heq3] at h3
          exact h3.trans hts4
        rcases pbind_eq_some hf with ⟨e, ts0, hx2, hr2, rfl⟩ | ⟨cons, ts6, hx2, hf2⟩
        · exact (ihBlk _ _ _ hx2).trans hts5
        · have hts6 : ts6 <:+ ts := (ihBlk _ _ _ hx2).trans hts5
          split at hf2
          · split at hf2
            · next heq4 =>
              injection hf2 with hf2
              injection hf2 with h1 h2
              subst h2
              have h3 := expectPeek_suffix Token.LBrace (nextToken ts6)
              rw [heq4] at h3
              exact (h3.trans (nextToken_suffix ts6)).trans hts6
            · next u4 ts8 heq4 =>
              have hts8 : ts8 <:+ ts := by
                have h3 := expectPeek_suffix Token.LBrace (nextToken ts6)
                rw [heq4] at h3
                exact (h3.trans (nextToken_suffix ts6)).trans hts6
              rcases pbind_eq_some hf2 with ⟨e, ts0, hx3, hr3, rfl⟩ |
                ⟨alt, ts9, hx3, hf3⟩
              · exact (ihBlk _ _ _ hx3).trans hts8
              · injection hf3 with hf3
                injection hf3 with h1 h2
                subst h2
                exact (ihBlk _ _ _ hx3).trans hts8
          · injection hf2 with hf2
            injection hf2 with h1 h2
            subst h2
            exact hts6

theorem suffixStep_block {fuel : Nat}
    (ihBlkL : ∀ acc, SuffixSpec (parseBlockLoopF fuel acc)) :
    SuffixSpec (parseBlockStatementF (fuel + 1)) := by
intro ts r ts' h
simp only [parseBlockStatementF] at h
exact (ihBlkL _ _ _ _ h).trans (nextToken_suffix ts)

theorem suffixStep_blockLoop {fuel : Nat}
    (ihStmt : SuffixSpec (parseStatementF fuel))
    (ihBlkL : ∀ acc, SuffixSpec (parseBlockLoopF fuel acc)) :
    ∀ acc, SuffixSpec (parseBlockLoopF (fuel + 1) acc) := by
intro acc ts r ts' h
simp only [parseBlockLoopF] at h
split at h
· rcases pbind_eq_some h with ⟨e, ts0, hx, hr, rfl⟩ | ⟨s, ts1, hx, hf⟩
  · exact ihStmt _ _ _ hx
  · exact ((ihBlkL _ _ _ _ hf).trans (nextToken_suffix ts1)).trans
      (ihStmt _ _ _ hx)
· injection h with h
  injection h with h1 h2
  subst h2
  exact List.suffix_refl ts

theorem suffixStep_statement {fuel : Nat}
    (ihLet : SuffixSpec (parseLetStatementF fuel))
    (ihRet : SuffixSpec (parseReturnStatementF fuel))
    (ihExpS : SuffixSpec (parseExpressionStatementF fuel)) :
    SuffixSpec (parseStatementF (fuel + 1)) := by
intro ts r ts' h
simp only [parseStatementF] at h
split at h
all_goals
  first
  | exact ihLet _ _ _ h
  | exact ihRet _ _ _ h
  | exact ihExpS _ _ _ h

/-- Every parse function only discards tokens from the front of the
stream: the state after any parse step is a suffix of the state before
it. -/
theorem parseSuffixPack (fuel : Nat) :
    (∀ p, SuffixSpec (parseExpressionF fuel p)) ∧
    (∀ p lhs, SuffixSpec (parseExprLoopF fuel p lhs)) ∧
    (∀ lhs, SuffixSpec (parseInfixF fuel lhs)) ∧
    (∀ lhs, SuffixSpec (parseCallExpressionF fuel lhs)) ∧
    SuffixSpec (parseCallArgumentsF fuel) ∧
    (∀ acc, SuffixSpec (parseCallArgsLoopF fuel acc)) ∧
    SuffixSpec (parsePrefixF fuel) ∧
    SuffixSpec (parseGroupedExpressionF fuel) ∧
    SuffixSpec (parsePrefixExpressionF fuel) ∧
    SuffixSpec (parseIfExpressionF fuel) ∧
    SuffixSpec (parseFunctionLiteralF fuel) ∧
    SuffixSpec (parseBlockStatementF fuel) ∧
    (∀ acc, SuffixSpec (parseBlockLoopF fuel acc)) ∧
    SuffixSpec (parseStatementF fuel) ∧
    SuffixSpec (parseLetStatementF fuel) ∧
    SuffixSpec (parseReturnStatementF fuel) ∧
    SuffixSpec (parseExpressionStatementF fuel) := by
induction fuel with
| zero =>
  refine ⟨?_, ?_, ?_, ?_, ?_, ?_, ?_, ?_, ?_, ?_, ?_, ?_, ?_, ?_, ?_, ?_, ?_⟩
  · intro p ts r ts' h
    simp [parseExpressionF] at h
  · intro p lhs ts r ts' h
    simp [parseExprLoopF] at h
  · intro lhs ts r ts' h
    simp [parseInfixF] at h
  · intro lhs ts r ts' h
    simp [parseCallExpressionF] at h
  · intro ts r ts' h
    simp [parseCallArgumentsF] at h
  · intro acc ts r ts' h
    simp [parseCallArgsLoopF] at h
  · intro ts r ts' h
    simp [parsePrefixF] at h
  · intro ts r ts' h
    simp [parseGroupedExpressionF] at h
  · intro ts r ts' h
    simp [parsePrefixExpressionF] at h
  · intro ts r ts' h
    simp [parseIfExpressionF] at h
  · intro ts r ts' h
    simp [parseFunctionLiteralF] at h
  · intro ts r ts' h
    simp [parseBlockStatementF] at h
  · intro acc ts r ts' h
    simp [parseBlockLoopF] at h
  · intro ts r ts' h
    simp [parseStatementF] at h
  · intro ts r ts' h
    simp [parseLetStatementF] at h
  · intro ts r ts' h
    simp [parseReturnStatementF] at h
  · intro ts r ts' h
    simp [parseExpressionStatementF] at h
| succ fuel ih =>
  obtain ⟨ihExp, ihLoop, ihInf, ihCallE, ihCallA, ihArgsL, ihPre, ihGrp,
    ihPrfE, ihIf, ihFn, ihBlk, ihBlkL, ihStmt, ihLet, ihRet, ihExpS⟩ := ih
  exact ⟨suffixStep_expression ihPre ihLoop, suffixStep_exprLoop ihInf ihLoop,
    suffixStep_infix ihExp ihCallE, suffixStep_callExpr ihCallA,
    suffixStep_callArgs ihExp ihArgsL, suffixStep_argsLoop ihExp ihArgsL,
    suffixStep_prefixFn ihGrp ihPrfE ihIf ihFn, suffixStep_grouped ihExp,
    suffixStep_prefixExpr ihExp, suffixStep_if ihExp ihBlk,
    suffixStep_funcLit ihBlk, suffixStep_block ihBlkL,
    suffixStep_blockLoop ihStmt ihBlkL,
    suffixStep_statement ihLet ihRet ihExpS, suffixStep_let ihExp,
    suffixStep_return ihExp, suffixStep_exprStmt ihExp⟩

/-- Statement parsing only discards tokens from the front. -/
theorem parseStatementF_suffix (fuel : Nat) : SuffixSpec (parseStatementF fuel) :=
(parseSuffixPack fuel).2.2.2.2.2.2.2.2.2.2.2.2.2.1

theorem monoStep_return {n m : Nat}
    (ihExp : ∀ p, MonoSpec (parseExpressionF n p) (parseExpressionF m p)) :
    MonoSpec (parseReturnStatementF (n + 1)) (parseReturnStatementF (m + 1)) := by
intro ts r ts' h
simp only [parseReturnStatementF] at h ⊢
rcases pbind_eq_some h with ⟨e, ts0, hx, hr, rfl⟩ | ⟨a, ts0, hx, hf⟩
· subst hr
  rw [ihExp _ _ _ _ hx]
  simp [pbind]
· rw [ihExp _ _ _ _ hx]
  simp only [pbind]
  exact hf

theorem monoStep_exprStmt {n m : Nat}
    (ihExp : ∀ p, MonoSpec (parseExpressionF n p) (parseExpressionF m p)) :
    MonoSpec (parseExpressionStatementF (n + 1)) (parseExpressionStatementF (m + 1)) := by
intro ts r ts' h
simp only [parseExpressionStatementF] at h ⊢
rcases pbind_eq_some h with ⟨e, ts0, hx, hr, rfl⟩ | ⟨a, ts0, hx, hf⟩
· subst hr
  rw [ihExp _ _ _ _ hx]
  simp [pbind]
· rw [ihExp _ _ _ _ hx]
  simp only [pbind]
  exact hf

theorem monoStep_expression {n m : Nat}
    (ihPre : MonoSpec (parsePrefixF n) (parsePrefixF m))
    (ihLoop : ∀ p lhs,
      MonoSpec (parseExprLoopF n p lhs) (parseExprLoopF m p lhs)) :
    ∀ p, MonoSpec (parseExpressionF (n + 1) p) (parseExpressionF (m + 1) p) := by
intro p ts r ts' h
simp only [parseExpressionF] at h ⊢
rcases pbind_eq_some h with ⟨e, ts0, hx, hr, rfl⟩ | ⟨a, ts0, hx, hf⟩
· subst hr
  rw [ihPre _ _ _ hx]
  simp [pbind]
· rw [ihPre _ _ _ hx]
  simp only [pbind]
  exact ihLoop _ _ _ _ _ hf

theorem monoStep_exprLoop {n m : Nat}
    (ihInf : ∀ lhs, MonoSpec (parseInfixF n lhs) (parseInfixF m lhs))
    (ihLoop : ∀ p lhs,
      MonoSpec (parseExprLoopF n p lhs) (parseExprLoopF m p lhs)) :
    ∀ p lhs, MonoSpec (parseExprLoopF (n + 1) p lhs) (parseExprLoopF (m + 1) p lhs) := by
intro p lhs ts r ts' h
simp only [parseExprLoopF] at h ⊢
split at h
· next hg =>
  rw [if_pos hg]
  rcases pbind_eq_some h with ⟨e, ts0, hx, hr, rfl⟩ | ⟨a, ts0, hx, hf⟩
  · subst hr
    rw [ihInf _ _ _ _ hx]
    simp [pbind]
  · rw [ihInf _ _ _ _ hx]
    simp only [pbind]
    exact ihLoop _ _ _ _ _ hf
· next hg =>
  rw [if_neg hg]
  exact h

theorem monoStep_prefixFn {n m : Nat}
    (ihGrp : MonoSpec (parseGroupedExpressionF n) (parseGroupedExpressionF m))
    (ihPrfE : MonoSpec (parsePrefixExpressionF n) (parsePrefixExpressionF m))
    (ihIf : MonoSpec (parseIfExpressionF n) (parseIfExpressionF m))
    (ihFn : MonoSpec (parseFunctionLiteralF n) (parseFunctionLiteralF m)) :
    MonoSpec (parsePrefixF (n + 1)) (parsePrefixF (m + 1)) := by
intro ts r ts' h
simp only [parsePrefixF] at h ⊢
split at h
all_goals
  first
  | exact ihGrp _ _ _ h
  | exact ihPrfE _ _ _ h
  | exact ihIf _ _ _ h
  | exact ihFn _ _ _ h
  | exact h

theorem monoStep_grouped {n m : Nat}
    (ihExp : ∀ p, MonoSpec (parseExpressionF n p) (parseExpressionF m p)) :
    MonoSpec (parseGroupedExpressionF (n + 1)) (parseGroupedExpressionF (m + 1)) := by
intro ts r ts' h
simp only [parseGroupedExpressionF] at h ⊢
split at h
· exact absurd h (by simp)
· next res ts2 heq =>
  simp only [ihExp _ _ _ _ heq]
  split at h
  all_goals exact h

theorem monoStep_prefixExpr {n m : Nat}
    (ihExp : ∀ p, MonoSpec (parseExpressionF n p) (parseExpressionF m p)) :
    MonoSpec (parsePrefixExpressionF (n + 1)) (parsePrefixExpressionF (m + 1)) := by
intro ts r ts' h
simp only [parsePrefixExpressionF] at h ⊢
split at h
all_goals
  first
  | (rcases pbind_eq_some h with ⟨e, ts0, hx, hr, rfl⟩ | ⟨a, ts0, hx, hf⟩
     · subst hr
       rw [ihExp _ _ _ _ hx]
       simp [pbind]
     · rw [ihExp _ _ _ _ hx]
       simp only [pbind]
       exact hf)
  | exact h

theorem monoStep_infix {n m : Nat}
    (ihExp : ∀ p, MonoSpec (parseExpressionF n p) (parseExpressionF m p))
    (ihCallE : ∀ lhs,
      MonoSpec (parseCallExpressionF n lhs) (parseCallExpressionF m lhs)) :
    ∀ lhs, MonoSpec (parseInfixF (n + 1) lhs) (parseInfixF (m + 1) lhs) := by
intro lhs ts r ts' h
simp only [parseInfixF] at h ⊢
split at h
all_goals
  first
  | exact ihCallE _ _ _ _ h
  | (rcases pbind_eq_some h with ⟨e, ts0, hx, hr, rfl⟩ | ⟨a, ts0, hx, hf⟩
     · subst hr
       rw [ihExp _ _ _ _ hx]
       simp [pbind]
     · rw [ihExp _ _ _ _ hx]
       simp only [pbind]
       exact hf)
  | exact h

theorem monoStep_callExpr {n m : Nat}
    (ihCallA : MonoSpec (parseCallArgumentsF n) (parseCallArgumentsF m)) :
    ∀ lhs, MonoSpec (parseCallExpressionF (n + 1) lhs) (parseCallExpressionF (m + 1) lhs) := by
intro lhs ts r ts' h
simp only [parseCallExpressionF] at h ⊢
rcases pbind_eq_some h with ⟨e, ts0, hx, hr, rfl⟩ | ⟨a, ts0, hx, hf⟩
· subst hr
  rw [ihCallA _ _ _ hx]
  simp [pbind]
· rw [ihCallA _ _ _ hx]
  simp only [pbind]
  exact hf

theorem monoStep_callArgs {n m : Nat}
    (ihExp : ∀ p, MonoSpec (parseExpressionF n p) (parseExpressionF m p))
    (ihArgsL : ∀ acc,
      MonoSpec (parseCallArgsLoopF n acc) (parseCallArgsLoopF m acc)) :
    MonoSpec (parseCallArgumentsF (n + 1)) (parseCallArgumentsF (m + 1)) := by
intro ts r ts' h
simp only [parseCallArgumentsF] at h ⊢
split at h
· next hg =>
  rw [if_pos hg]
  exact h
· next hg =>
  rw [if_neg hg]
  rcases pbind_eq_some h with ⟨e, ts0, hx, hr, rfl⟩ | ⟨a, ts0, hx, hf⟩
  · subst hr
    rw [ihExp _ _ _ _ hx]
    simp [pbind]
  · rw [ihExp _ _ _ _ hx]
    simp only [pbind]
    rcases pbind_eq_some hf with ⟨e, ts3, hx2, hr2, rfl⟩ | ⟨args, ts3, hx2, hf2⟩
    · subst hr2
      rw [ihArgsL _ _ _ _ hx2]
    · rw [ihArgsL _ _ _ _ hx2]
      simp only [pbind]
      split at hf2
      all_goals exact hf2

theorem monoStep_argsLoop {n m : Nat}
    (ihExp : ∀ p, MonoSpec (parseExpressionF n p) (parseExpressionF m p))
    (ihArgsL : ∀ acc,
      MonoSpec (parseCallArgsLoopF n acc) (parseCallArgsLoopF m acc)) :
    ∀ acc, MonoSpec (parseCallArgsLoopF (n + 1) acc) (parseCallArgsLoopF (m + 1) acc) := by
intro acc ts r ts' h
simp only [parseCallArgsLoopF] at h ⊢
split at h
· next hg =>
  rw [if_pos hg]
  rcases pbind_eq_some h with ⟨e, ts0, hx, hr, rfl⟩ | ⟨a, ts0, hx, hf⟩
  · subst hr
    rw [ihExp _ _ _ _ hx]
    simp [pbind]
  · rw [ihExp _ _ _ _ hx]
    simp only [pbind]
    exact ihArgsL _ _ _ _ hf
· next hg =>
  rw [if_neg hg]
  exact h

theorem monoStep_funcLit {n m : Nat}
    (ihBlk : MonoSpec (parseBlockStatementF n) (parseBlockStatementF m)) :
    MonoSpec (parseFunctionLiteralF (n + 1)) (parseFunctionLiteralF (m + 1)) := by
intro ts r ts' h
simp only [parseFunctionLiteralF] at h ⊢
split at h
· exact h
· split at h
  · exact h
  · split at h
    · exact h
    · rcases pbind_eq_some h with ⟨e, ts0, hx, hr, rfl⟩ | ⟨a, ts0, hx, hf⟩
      · subst hr
        simp only [ihBlk _ _ _ hx, pbind]
      · rw [ihBlk _ _ _ hx]
        simp only [pbind]
        exact hf

theorem monoStep_if {n m : Nat}
    (ihExp : ∀ p, MonoSpec (parseExpressionF n p) (parseExpressionF m p))
    (ihBlk : MonoSpec (parseBlockStatementF n) (parseBlockStatementF m)) :
    MonoSpec (parseIfExpressionF (n + 1)) (parseIfExpressionF (m + 1)) := by
intro ts r ts' h
simp only [parseIfExpressionF] at h ⊢
split at h
· exact h
· rcases pbind_eq_some h with ⟨e, ts0, hx, hr, rfl⟩ | ⟨c, ts3, hx, hf⟩
  · subst hr
    rw [ihExp _ _ _ _ hx]
    simp [pbind]
  · rw [ihExp _ _ _ _ hx]
    simp only [pbind]
    split at hf
    · exact hf
    · split at hf
      · exact hf
      · rcases pbind_eq_some hf with ⟨e, ts0, hx2, hr2, rfl⟩ | ⟨cons, ts6, hx2, hf2⟩
        · subst hr2
          simp only [ihBlk _ _ _ hx2, pbind]
        · rw [ihBlk _ _ _ hx2]
          simp only [pbind]
          split at hf2
          · next hg =>
            rw [if_pos hg]
            split at hf2
            · exact hf2
            · rcases pbind_eq_some hf2 with ⟨e, ts0, hx3, hr3, rfl⟩ |
                ⟨alt, ts9, hx3, hf3⟩
              · subst hr3
                simp only [ihBlk _ _ _ hx3, pbind]
              · rw [ihBlk _ _ _ hx3]
                simp only [pbind]
                exact hf3
          · next hg =>
            rw [if_neg hg]
            exact hf2

theorem monoStep_block {n m : Nat}
    (ihBlkL : ∀ acc, MonoSpec (parseBlockLoopF n acc) (parseBlockLoopF m acc)) :
    MonoSpec (parseBlockStatementF (n + 1)) (parseBlockStatementF (m + 1)) := by
intro ts r ts' h
simp only [parseBlockStatementF] at h ⊢
exact ihBlkL _ _ _ _ h

theorem monoStep_blockLoop {n m : Nat}
    (ihStmt : MonoSpec (parseStatementF n) (parseStatementF m))
    (ihBlkL : ∀ acc, MonoSpec (parseBlockLoopF n acc) (parseBlockLoopF m acc)) :
    ∀ acc, MonoSpec (parseBlockLoopF (n + 1) acc) (parseBlockLoopF (m + 1) acc) := by
intro acc ts r ts' h
simp only [parseBlockLoopF] at h ⊢
split at h
· next hg =>
  rw [if_pos hg]
  rcases pbind_eq_some h with ⟨e, ts0, hx, hr, rfl⟩ | ⟨s, ts1, hx, hf⟩
  · subst hr
    rw [ihStmt _ _ _ hx]
    simp [pbind]
  · rw [ihStmt _ _ _ hx]
    simp only [pbind]
    exact ihBlkL _ _ _ _ hf
· next hg =>
  rw [if_neg hg]
  exact h

theorem monoStep_statement {n m : Nat}
    (ihLet : MonoSpec (parseLetStatementF n) (parseLetStatementF m))
    (ihRet : MonoSpec (parseReturnStatementF n) (parseReturnStatementF m))
    (ihExpS : MonoSpec (parseExpressionStatementF n) (parseExpressionStatementF m)) :
    MonoSpec (parseStatementF (n + 1)) (parseStatementF (m + 1)) := by
intro ts r ts' h
simp only [parseStatementF] at h ⊢
split at h
all_goals
  first
  | exact ihLet _ _ _ h
  | exact ihRet _ _ _ h
  | exact ihExpS _ _ _ h

theorem monoStep_let {n m : Nat}
    (ihExp : ∀ p, MonoSpec (parseExpressionF n p) (parseExpressionF m p)) :
    MonoSpec (parseLetStatementF (n + 1)) (parseLetStatementF (m + 1)) := by
intro ts r ts' h
simp only [parseLetStatementF] at h ⊢
split at h
· split at h
  · exact h
  · rcases pbind_eq_some h with ⟨e, ts0, hx, hr, rfl⟩ | ⟨a, ts0, hx, hf⟩
    · subst hr
      rw [ihExp _ _ _ _ hx]
      simp [pbind]
    · rw [ihExp _ _ _ _ hx]
      simp only [pbind]
      exact hf
· exact h

theorem monoStep_program {n m : Nat}
    (ihStmt : MonoSpec (parseStatementF n) (parseStatementF m))
    (ihProg : ∀ ts y, parseProgramF n ts = some y → parseProgramF m ts = some y) :
    ∀ ts y, parseProgramF (n + 1) ts = some y → parseProgramF (m + 1) ts = some y := by
intro ts y h
simp only [parseProgramF] at h ⊢
split at h
· next hg =>
  rw [if_pos hg]
  exact h
· next hg =>
  rw [if_neg hg]
  split at h
  · exact absurd h (by simp)
  · next res ts1 heq =>
    simp only [ihStmt _ _ _ heq]
    split at h
    · exact absurd h (by simp)
    · next prog errs heq2 =>
      simp only [ihProg _ _ heq2]
      exact h

/-- Raising the fuel preserves any already-computed result, for every
function of the parser. -/
theorem parseMonoPack : ∀ n m : Nat, n ≤ m →
    (∀ p, MonoSpec (parseExpressionF n p) (parseExpressionF m p)) ∧
    (∀ p lhs, MonoSpec (parseExprLoopF n p lhs) (parseExprLoopF m p lhs)) ∧
    (∀ lhs, MonoSpec (parseInfixF n lhs) (parseInfixF m lhs)) ∧
    (∀ lhs, MonoSpec (parseCallExpressionF n lhs) (parseCallExpressionF m lhs)) ∧
    MonoSpec (parseCallArgumentsF n) (parseCallArgumentsF m) ∧
    (∀ acc, MonoSpec (parseCallArgsLoopF n acc) (parseCallArgsLoopF m acc)) ∧
    MonoSpec (parsePrefixF n) (parsePrefixF m) ∧
    MonoSpec (parseGroupedExpressionF n) (parseGroupedExpressionF m) ∧
    MonoSpec (parsePrefixExpressionF n) (parsePrefixExpressionF m) ∧
    MonoSpec (parseIfExpressionF n) (parseIfExpressionF m) ∧
    MonoSpec (parseFunctionLiteralF n) (parseFunctionLiteralF m) ∧
    MonoSpec (parseBlockStatementF n) (parseBlockStatementF m) ∧
    (∀ acc, MonoSpec (parseBlockLoopF n acc) (parseBlockLoopF m acc)) ∧
    MonoSpec (parseStatementF n) (parseStatementF m) ∧
    MonoSpec (parseLetStatementF n) (parseLetStatementF m) ∧
    MonoSpec (parseReturnStatementF n) (parseReturnStatementF m) ∧
    MonoSpec (parseExpressionStatementF n) (parseExpressionStatementF m) ∧
    (∀ ts y, parseProgramF n ts = some y → parseProgramF m ts = some y) := by
intro n
induction n with
| zero =>
  intro m hm
  refine ⟨?_, ?_, ?_, ?_, ?_, ?_, ?_, ?_, ?_, ?_, ?_, ?_, ?_, ?_, ?_, ?_, ?_, ?_⟩
  · intro p ts r ts' h
    simp [parseExpressionF] at h
  · intro p lhs ts r ts' h
    simp [parseExprLoopF] at h
  · intro lhs ts r ts' h
    simp [parseInfixF] at h
  · intro lhs ts r ts' h
    simp [parseCallExpressionF] at h
  · intro ts r ts' h
    simp [parseCallArgumentsF] at h
  · intro acc ts r ts' h
    simp [parseCallArgsLoopF] at h
  · intro ts r ts' h
    simp [parsePrefixF] at h
  · intro ts r ts' h
    simp [parseGroupedExpressionF] at h
  · intro ts r ts' h
    simp [parsePrefixExpressionF] at h
  · intro ts r ts' h
    simp [parseIfExpressionF] at h
  · intro ts r ts' h
    simp [parseFunctionLiteralF] at h
  · intro ts r ts' h
    simp [parseBlockStatementF] at h
  · intro acc ts r ts' h
    simp [parseBlockLoopF] at h
  · intro ts r ts' h
    simp [parseStatementF] at h
  · intro ts r ts' h
    simp [parseLetStatementF] at h
  · intro ts r ts' h
    simp [parseReturnStatementF] at h
  · intro ts r ts' h
    simp [parseExpressionStatementF] at h
  · intro ts y h
    simp [parseProgramF] at h
| succ n ih =>
  intro m hm
  match m, hm with
  | m + 1, hm =>
    obtain ⟨ihExp, ihLoop, ihInf, ihCallE, ihCallA, ihArgsL, ihPre, ihGrp,
      ihPrfE, ihIf, ihFn, ihBlk, ihBlkL, ihStmt, ihLet, ihRet, ihExpS,
      ihProg⟩ := ih m (Nat.succ_le_succ_iff.mp hm)
    exact ⟨monoStep_expression ihPre ihLoop, monoStep_exprLoop ihInf ihLoop,
      monoStep_infix ihExp ihCallE, monoStep_callExpr ihCallA,
      monoStep_callArgs ihExp ihArgsL, monoStep_argsLoop ihExp ihArgsL,
      monoStep_prefixFn ihGrp ihPrfE ihIf ihFn, monoStep_grouped ihExp,
      monoStep_prefixExpr ihExp, monoStep_if ihExp ihBlk,
      monoStep_funcLit ihBlk, monoStep_block ihBlkL,
      monoStep_blockLoop ihStmt ihBlkL, monoStep_statement ihLet ihRet ihExpS,
      monoStep_let ihExp, monoStep_return ihExp, monoStep_exprStmt ihExp,
      monoStep_program ihStmt ihProg⟩

theorem parseExpressionF_suffix (fuel : Nat) :
    ∀ p, SuffixSpec (parseExpressionF fuel p) :=
(parseSuffixPack fuel).1

theorem parseExprLoopF_suffix (fuel : Nat) :
    ∀ p lhs, SuffixSpec (parseExprLoopF fuel p lhs) :=
(parseSuffixPack fuel).2.1

theorem parseInfixF_suffix (fuel : Nat) :
    ∀ lhs, SuffixSpec (parseInfixF fuel lhs) :=
(parseSuffixPack fuel).2.2.1

theorem parseCallExpressionF_suffix (fuel : Nat) :
    ∀ lhs, SuffixSpec (parseCallExpressionF fuel lhs) :=
(parseSuffixPack fuel).2.2.2.1

theorem parseCallArgumentsF_suffix (fuel : Nat) :
    SuffixSpec (parseCallArgumentsF fuel) :=
(parseSuffixPack fuel).2.2.2.2.1

theorem parseCallArgsLoopF_suffix (fuel : Nat) :
    ∀ acc, SuffixSpec (parseCallArgsLoopF fuel acc) :=
(parseSuffixPack fuel).2.2.2.2.2.1

theorem parsePrefixF_suffix (fuel : Nat) : SuffixSpec (parsePrefixF fuel) :=
(parseSuffixPack fuel).2.2.2.2.2.2.1

theorem parseGroupedExpressionF_suffix (fuel : Nat) :
    SuffixSpec (parseGroupedExpressionF fuel) :=
(parseSuffixPack fuel).2.2.2.2.2.2.2.1

theorem parsePrefixExpressionF_suffix (fuel : Nat) :
    SuffixSpec (parsePrefixExpressionF fuel) :=
(parseSuffixPack fuel).2.2.2.2.2.2.2.2.1

theorem parseIfExpressionF_suffix (fuel : Nat) :
    SuffixSpec (parseIfExpressionF fuel) :=
(parseSuffixPack fuel).2.2.2.2.2.2.2.2.2.1

theorem parseFunctionLiteralF_suffix (fuel : Nat) :
    SuffixSpec (parseFunctionLiteralF fuel) :=
(parseSuffixPack fuel).2.2.2.2.2.2.2.2.2.2.1

theorem parseBlockStatementF_suffix (fuel : Nat) :
    SuffixSpec (parseBlockStatementF fuel) :=
(parseSuffixPack fuel).2.2.2.2.2.2.2.2.2.2.2.1

theorem parseBlockLoopF_suffix (fuel : Nat) :
    ∀ acc, SuffixSpec (parseBlockLoopF fuel acc) :=
(parseSuffixPack fuel).2.2.2.2.2.2.2.2.2.2.2.2.1

theorem parseLetStatementF_suffix (fuel : Nat) :
    SuffixSpec (parseLetStatementF fuel) :=
(parseSuffixPack fuel).2.2.2.2.2.2.2.2.2.2.2.2.2.2.1

theorem parseReturnStatementF_suffix (fuel : Nat) :
    SuffixSpec (parseReturnStatementF fuel) :=
(parseSuffixPack fuel).2.2.2.2.2.2.2.2.2.2.2.2.2.2.2.1

theorem parseExpressionStatementF_suffix (fuel : Nat) :
    SuffixSpec (parseExpressionStatementF fuel) :=
(parseSuffixPack fuel).2.2.2.2.2.2.2.2.2.2.2.2.2.2.2.2

/-- The tail's length, as an equation usable by arithmetic. -/
theorem nextToken_length (ts : List Token) :
    (nextToken ts).length = ts.length - 1 :=
List.length_tail ts

/-- Successful `expect_peek!` means the lookahead matched and one token
was consumed. -/
theorem expectPeek_eq_ok {t : Token} {ts ts1 : List Token} {u : Unit}
    (h : expectPeek t ts = (Except.ok u, ts1)) :
    peekingToken ts = t ∧ ts1 = nextToken ts := by
unfold expectPeek at h
split at h
· next hp =>
  injection h with h1 h2
  exact ⟨hp, h2.symm⟩
· injection h with h1 h2
  exact absurd h1.symm (by simp)

/-- Failed `expect_peek!` leaves the state unchanged. -/
theorem expectPeek_eq_error {t : Token} {ts ts1 : List Token}
    {e : ParserError} (h : expectPeek t ts = (Except.error e, ts1)) :
    ts1 = ts := by
unfold expectPeek at h
split at h
· injection h with h1 h2
  exact absurd h1.symm (by simp)
· injection h with h1 h2
  exact h2.symm

/-- A suffix of equal length is the whole list. -/
theorem suffix_eq_of_length {ts1 ts : List Token} (h : ts1 <:+ ts)
    (hl : ts.length ≤ ts1.length) : ts1 = ts := by
obtain ⟨u, rfl⟩ := h
have : u = [] := by
  have := List.length_append u ts1
  cases u with
  | nil => rfl
  | cons a l => simp at hl this; omega
subst this
rfl

/-- Building a defined result through the `?`-sequencing. -/
theorem pbind_isSome {α β : Type} {x : Option (PResult α)}
    {f : α → List Token → Option (PResult β)} (hx : x.isSome)
    (hf : ∀ a ts0, x = some (Except.ok a, ts0) → (f a ts0).isSome) :
    (pbind x f).isSome := by
obtain ⟨⟨r, ts0⟩, heq⟩ := Option.isSome_iff_exists.mp hx
rw [heq]
cases r with
| error e => simp [pbind]
| ok a =>
  simp only [pbind]
  exact hf a ts0 heq

/-- Fuel linear in the number of remaining tokens is enough for every
function of the parser: with such fuel no computation runs out.  The
offsets order the functions by their position in the call graph, so that
every call either strictly consumes tokens or moves to a smaller
offset. -/
theorem parseSufficiencyPack : ∀ n : Nat,
    (∀ p ts, 11 * ts.length + 6 < n → (parseExpressionF n p ts).isSome) ∧
    (∀ p lhs ts, 11 * ts.length + 4 < n → (parseExprLoopF n p lhs ts).isSome) ∧
    (∀ lhs ts, 11 * ts.length + 3 < n → (parseInfixF n lhs ts).isSome) ∧
    (∀ lhs ts, ts ≠ [] → 11 * ts.length + 2 < n →
      (parseCallExpressionF n lhs ts).isSome) ∧
    (∀ ts, ts ≠ [] → 11 * ts.length + 1 < n →
      (parseCallArgumentsF n ts).isSome) ∧
    (∀ acc ts, 11 * ts.length < n → (parseCallArgsLoopF n acc ts).isSome) ∧
    (∀ ts, 11 * ts.length + 5 < n → (parsePrefixF n ts).isSome) ∧
    (∀ ts, ts ≠ [] → 11 * ts.length + 4 < n →
      (parseGroupedExpressionF n ts).isSome) ∧
    (∀ ts, ts ≠ [] → 11 * ts.length + 4 < n →
      (parsePrefixExpressionF n ts).isSome) ∧
    (∀ ts, 11 * ts.length + 4 < n → (parseIfExpressionF n ts).isSome) ∧
    (∀ ts, 11 * ts.length + 4 < n → (parseFunctionLiteralF n ts).isSome) ∧
    (∀ ts, 11 * ts.length + 10 < n → (parseBlockStatementF n ts).isSome) ∧
    (∀ acc ts, 11 * ts.length + 9 < n → (parseBlockLoopF n acc ts).isSome) ∧
    (∀ ts, 11 * ts.length + 8 < n → (parseStatementF n ts).isSome) ∧
    (∀ ts, 11 * ts.length + 7 < n → (parseLetStatementF n ts).isSome) ∧
    (∀ ts, 11 * ts.length + 7 < n → (parseReturnStatementF n ts).isSome) ∧
    (∀ ts, 11 * ts.length + 7 < n → (parseExpressionStatementF n ts).isSome) ∧
    (∀ ts, 11 * ts.length + 10 < n → (parseProgramF n ts).isSome) := by
intro n
induction n with
| zero =>
  refine ⟨?_, ?_, ?_, ?_, ?_, ?_, ?_, ?_, ?_, ?_, ?_, ?_, ?_, ?_, ?_, ?_, ?_, ?_⟩
  all_goals intros
  all_goals omega
| succ n ih =>
  obtain ⟨ihExp, ihLoop, ihInf, ihCallE, ihCallA, ihArgsL, ihPre, ihGrp,
    ihPrfE, ihIf, ihFn, ihBlk, ihBlkL, ihStmt, ihLet, ihRet, ihExpS,
    ihProg⟩ := ih
  refine ⟨?_, ?_, ?_, ?_, ?_, ?_, ?_, ?_, ?_, ?_, ?_, ?_, ?_, ?_, ?_, ?_, ?_, ?_⟩
  · intro p ts hlt
    simp only [parseExpressionF]
    apply pbind_isSome (ihPre ts (by omega))
    intro lhs ts1 heq
    have hs := (parsePrefixF_suffix n ts _ _ heq).length_le
    exact ihLoop p lhs ts1 (by omega)
  · intro p lhs ts hlt
    simp only [parseExprLoopF]
    split
    · next hg =>
      have hpeek := peek_ne_EOF_of_guard _ _ hg.2
      have hL := two_le_length_of_peek_ne _ hpeek
      have e1 := nextToken_length ts
      apply pbind_isSome (ihInf lhs (nextToken ts) (by omega))
      intro lhs' ts' heq
      have hs := (parseInfixF_suffix n lhs (nextToken ts) _ _ heq).length_le
      exact ihLoop p lhs' ts' (by omega)
    · simp
  · intro lhs ts hlt
    simp only [parseInfixF]
    split
    all_goals
      first
      | simp
      | (next heq =>
          have hne : ts ≠ [] := ne_nil_of_current_ne ts (by rw [heq]; simp)
          have hL := List.length_pos.mpr hne
          have e1 := nextToken_length ts
          apply pbind_isSome (ihExp _ (nextToken ts) (by omega))
          intro rhs ts2 heq2
          simp)
      | (next heq =>
          have hne : ts ≠ [] := ne_nil_of_current_ne ts (by rw [heq]; simp)
          exact ihCallE lhs ts hne (by omega))
  · intro lhs ts hne hlt
    simp only [parseCallExpressionF]
    apply pbind_isSome (ihCallA ts hne (by omega))
    intro a ts1 heq
    simp
  · intro ts hne hlt
    simp only [parseCallArgumentsF]
    split
    · simp
    · have hL := List.length_pos.mpr hne
      have e1 := nextToken_length ts
      apply pbind_isSome (ihExp _ (nextToken ts) (by omega))
      intro a ts2 heq
      have hs := (parseExpressionF_suffix n _ (nextToken ts) _ _ heq).length_le
      apply pbind_isSome (ihArgsL [a] ts2 (by omega))
      intro args ts3 heq3
      split <;> simp
  · intro acc ts hlt
    simp only [parseCallArgsLoopF]
    split
    · next hg =>
      have hpeek : peekingToken ts ≠ Token.EOF := by rw [hg]; simp
      have hL := two_le_length_of_peek_ne _ hpeek
      have e1 := nextToken_length ts
      have e2 := nextToken_length (nextToken ts)
      apply pbind_isSome (ihExp _ (nextToken (nextToken ts)) (by omega))
      intro a ts2 heq
      have hs := (parseExpressionF_suffix n _ _ _ _ heq).length_le
      exact ihArgsL (acc ++ [a]) ts2 (by omega)
    · simp
  · intro ts hlt
    simp only [parsePrefixF]
    split
    all_goals
      first
      | simp
      | (next heq =>
          have hne : ts ≠ [] := ne_nil_of_current_ne ts (by rw [heq]; simp)
          exact ihGrp ts hne (by omega))
      | (next heq =>
          have hne : ts ≠ [] := ne_nil_of_current_ne ts (by rw [heq]; simp)
          exact ihPrfE ts hne (by omega))
      | exact ihIf ts (by omega)
      | exact ihFn ts (by omega)
  · intro ts hne hlt
    simp only [parseGroupedExpressionF]
    have hL := List.length_pos.mpr hne
    have e1 := nextToken_length ts
    have h1 := ihExp Precedence.LOWEST (nextToken ts) (by omega)
    split
    · next heq0 =>
      rw [heq0] at h1
      simp at h1
    · split <;> simp
  · intro ts hne hlt
    simp only [parsePrefixExpressionF]
    have hL := List.length_pos.mpr hne
    have e1 := nextToken_length ts
    split
    all_goals
      first
      | simp
      | (apply pbind_isSome (ihExp _ (nextToken ts) (by omega))
         intro a ts2 heq
         simp)
  · intro ts hlt
    simp only [parseIfExpressionF]
    split
    · simp
    · next u ts1 heq1 =>
      obtain ⟨hpk, rfl⟩ := expectPeek_eq_ok heq1
      have hpeek : peekingToken ts ≠ Token.EOF := by rw [hpk]; simp
      have hL := two_le_length_of_peek_ne _ hpeek
      have e1 := nextToken_length ts
      have e2 := nextToken_length (nextToken ts)
      apply pbind_isSome (ihExp _ (nextToken (nextToken ts)) (by omega))
      intro c ts3 heq3
      have hs3 := (parseExpressionF_suffix n _ _ _ _ heq3).length_le
      split
      · simp
      · next u2 ts4 heq4 =>
        obtain ⟨hpk4, rfl⟩ := expectPeek_eq_ok heq4
        have e4 := nextToken_length ts3
        split
        · simp
        · next u3 ts5 heq5 =>
          obtain ⟨hpk5, rfl⟩ := expectPeek_eq_ok heq5
          have e5 := nextToken_length (nextToken ts3)
          apply pbind_isSome (ihBlk (nextToken (nextToken ts3)) (by omega))
          intro cons ts6 heq6
          have hs6 := (parseBlockStatementF_suffix n _ _ _ heq6).length_le
          split
          · split
            · simp
            · next u4 ts8 heq8 =>
              obtain ⟨hpk8, rfl⟩ := expectPeek_eq_ok heq8
              have e6 := nextToken_length ts6
              have e7 := nextToken_length (nextToken ts6)
              apply pbind_isSome (ihBlk (nextToken (nextToken ts6)) (by omega))
              intro alt ts9 heq9
              simp
          · simp
  · intro ts hlt
    simp only [parseFunctionLiteralF]
    split
    · simp
    · next u ts1 heq1 =>
      obtain ⟨hpk, rfl⟩ := expectPeek_eq_ok heq1
      have hpeek : peekingToken ts ≠ Token.EOF := by rw [hpk]; simp
      have hL := two_le_length_of_peek_ne _ hpeek
      have e1 := nextToken_length ts
      split
      · simp
      · next ps ts2 heq2 =>
        have hs2 : ts2.length ≤ (nextToken ts).length := by
          have h3 := parseFunctionParams_suffix (nextToken ts)
          rw [heq2] at h3
          exact h3.length_le
        split
        · simp
        · next u2 ts3 heq3 =>
          obtain ⟨hpk3, rfl⟩ := expectPeek_eq_ok heq3
          have e3 := nextToken_length ts2
          apply pbind_isSome (ihBlk (nextToken ts2) (by omega))
          intro body ts4 heq4
          simp
  · intro ts hlt
    simp only [parseBlockStatementF]
    have e1 := nextToken_length ts
    exact ihBlkL [] (nextToken ts) (by omega)
  · intro acc ts hlt
    simp only [parseBlockLoopF]
    split
    · next hg =>
      have hne : ts ≠ [] := ne_nil_of_current_ne ts hg.2
      have hL := List.length_pos.mpr hne
      apply pbind_isSome (ihStmt ts (by omega))
      intro s ts1 heq
      have hs := (parseStatementF_suffix n ts _ _ heq).length_le
      have e1 := nextToken_length ts1
      exact ihBlkL (acc ++ [s]) (nextToken ts1) (by omega)
    · simp
  · intro ts hlt
    simp only [parseStatementF]
    split
    all_goals
      first
      | exact ihLet ts (by omega)
      | exact ihRet ts (by omega)
      | exact ihExpS ts (by omega)
  · intro ts hlt
    simp only [parseLetStatementF]
    split
    · next name heq =>
      split
      · simp
      · next u ts2 heq2 =>
        obtain ⟨hpk2, rfl⟩ := expectPeek_eq_ok heq2
        have e1 := nextToken_length ts
        have e2 := nextToken_length (nextToken ts)
        have e3 := nextToken_length (nextToken (nextToken ts))
        apply pbind_isSome (ihExp _ _ (by omega))
        intro value ts4 heq4
        simp
    · simp
  · intro ts hlt
    simp only [parseReturnStatementF]
    have e1 := nextToken_length ts
    apply pbind_isSome (ihExp _ (nextToken ts) (by omega))
    intro value ts2 heq
    simp
  · intro ts hlt
    simp only [parseExpressionStatementF]
    apply pbind_isSome (ihExp _ ts (by omega))
    intro value ts1 heq
    split <;> simp
  · intro ts hlt
    simp only [parseProgramF]
    split
    · simp
    · next hg =>
      have hne : ts ≠ [] := ne_nil_of_current_ne ts hg
      have hL := List.length_pos.mpr hne
      have h1 := ihStmt ts (by omega)
      split
      · next heq0 =>
        rw [heq0] at h1
        simp at h1
      · next res ts1 heq =>
        have hs := parseStatementF_suffix n ts _ _ heq
        have hlen : (advanceTokens ts1).length < ts.length := by
          rcases Nat.lt_or_ge ts1.length ts.length with hlt1 | hge
          · exact lt_of_le_of_lt (advanceTokens_suffix ts1).length_le hlt1
          · have heqq : ts1 = ts := suffix_eq_of_length hs hge
            subst heqq
            exact advanceTokens_length_lt ts1 hg
        have h2 := ihProg (advanceTokens ts1) (by omega)
        split
        · next heq2 =>
          rw [heq2] at h2
          simp at h2
        · next prog errs heq2 =>
          cases res <;> simp

/-- The linear fuel `FUEL` is enough for a whole program parse. -/
theorem parseProgramF_isSome_FUEL (ts : List Token) :
    (parseProgramF (FUEL ts) ts).isSome :=
(parseSufficiencyPack (FUEL ts)).2.2.2.2.2.2.2.2.2.2.2.2.2.2.2.2.2 ts
  (by simp only [FUEL]; omega)

/-- Any fuel at least `FUEL` computes the program parse. -/
theorem parseProgramF_eq_parseProgram (ts : List Token) (n : Nat)
    (h : FUEL ts ≤ n) : parseProgramF n ts = some (parseProgram ts) := by
obtain ⟨y, hy⟩ := Option.isSome_iff_exists.mp (parseProgramF_isSome_FUEL ts)
have h2 := ((parseMonoPack (FUEL ts) n h).2.2.2.2.2.2.2.2.2.2.2.2.2.2.2.2.2) ts y hy
rw [h2]
unfold parseProgram
rw [hy]
rfl

/-- Any fuel at least `11·length + 9` computes the statement parse. -/
theorem parseStatementF_eq_parseStatement (ts : List Token) (n : Nat)
    (h : 11 * ts.length + 9 ≤ n) :
    parseStatementF n ts = some (parseStatement ts) := by
have h1 : (parseStatementF (11 * ts.length + 9) ts).isSome :=
  (parseSufficiencyPack (11 * ts.length + 9)).2.2.2.2.2.2.2.2.2.2.2.2.2.1 ts
    (by omega)
obtain ⟨⟨r, ts'⟩, hy⟩ := Option.isSome_iff_exists.mp h1
have h2 := ((parseMonoPack _ n h).2.2.2.2.2.2.2.2.2.2.2.2.2.1) ts r ts' hy
have h3 := ((parseMonoPack _ (FUEL ts)
  (by simp only [FUEL]; omega)).2.2.2.2.2.2.2.2.2.2.2.2.2.1) ts r ts' hy
rw [h2]
unfold parseStatement
rw [h3]
rfl

/-- The statement parse only discards tokens from the front. -/
theorem parseStatement_suffix (ts : List Token) :
    (parseStatement ts).2 <:+ ts := by
have h := parseStatementF_eq_parseStatement ts (FUEL ts)
  (by simp only [FUEL]; omega)
exact parseStatementF_suffix (FUEL ts) ts _ _ h

/-- On the end marker the program parse stops with an empty program and
no errors. -/
theorem parseProgram_eof {ts : List Token}
    (h : currentToken ts = Token.EOF) : parseProgram ts = (⟨[]⟩, []) := by
unfold parseProgram FUEL
rw [(by omega : 11 * ts.length + 11 = 11 * ts.length + 10 + 1)]
simp only [parseProgramF, h]
rfl

/-- One consumed step of resynchronization is strictly shrinking after a
statement parse away from the end marker. -/
theorem advance_after_statement_lt {ts : List Token}
    (h : currentToken ts ≠ Token.EOF) :
    (advanceTokens (parseStatement ts).2).length < ts.length := by
have hs := parseStatement_suffix ts
rcases Nat.lt_or_ge (parseStatement ts).2.length ts.length with hlt1 | hge
· exact lt_of_le_of_lt (advanceTokens_suffix _).length_le hlt1
· have heqq : (parseStatement ts).2 = ts := suffix_eq_of_length hs hge
  rw [heqq]
  exact advanceTokens_length_lt ts h

/-- Away from the end marker, a successful statement parse is appended to
the program, and the parse continues after resynchronization. -/
theorem parseProgram_cons_ok {ts ts' : List Token} {s : Statement}
    (h : currentToken ts ≠ Token.EOF)
    (hp : parseStatement ts = (Except.ok s, ts')) :
    parseProgram ts =
      (⟨s :: (parseProgram (advanceTokens ts')).1.statements⟩,
        (parseProgram (advanceTokens ts')).2) := by
have hlen := advance_after_statement_lt h
rw [hp] at hlen
simp only at hlen
conv =>
  lhs
  unfold parseProgram FUEL
rw [(by omega : 11 * ts.length + 11 = 11 * ts.length + 10 + 1)]
conv =>
  lhs
  rw [parseProgramF]
rw [if_neg h, parseStatementF_eq_parseStatement ts (11 * ts.length + 10)
  (by omega)]
simp only [hp]
rw [parseProgramF_eq_parseProgram (advanceTokens ts')
  (11 * ts.length + 10) (by simp only [FUEL]; omega)]
rcases hq : parseProgram (advanceTokens ts') with ⟨prog, errs⟩
rfl

/-- Away from the end marker, a failed statement parse appends its error
to the error list, and the parse continues after resynchronization. -/
theorem parseProgram_cons_error {ts ts' : List Token} {e : ParserError}
    (h : currentToken ts ≠ Token.EOF)
    (hp : parseStatement ts = (Except.error e, ts')) :
    parseProgram ts =
      ((parseProgram (advanceTokens ts')).1,
        e :: (parseProgram (advanceTokens ts')).2) := by
have hlen := advance_after_statement_lt h
rw [hp] at hlen
simp only at hlen
conv =>
  lhs
  unfold parseProgram FUEL
rw [(by omega : 11 * ts.length + 11 = 11 * ts.length + 10 + 1)]
conv =>
  lhs
  rw [parseProgramF]
rw [if_neg h, parseStatementF_eq_parseStatement ts (11 * ts.length + 10)
  (by omega)]
simp only [hp]
rw [parseProgramF_eq_parseProgram (advanceTokens ts')
  (11 * ts.length + 10) (by simp only [FUEL]; omega)]
rcases hq : parseProgram (advanceTokens ts') with ⟨prog, errs⟩
rfl

/-- C1: for every input token stream, `parse_program` terminates within
fuel linear in the stream length and returns a `Program` together with
the error list; on the end marker it stops; otherwise it parses one
statement, appends the statement on success and the error on failure, and
in both cases resynchronizes with `advanceTokens`, which advances until a
`;` is consumed or the end marker is reached, before attempting the next
statement. -/
theorem claim_C1 :
    (∀ (ts : List Token) (n : Nat), FUEL ts ≤ n →
      parseProgramF n ts = some (parseProgram ts)) ∧
    (∀ ts : List Token, currentToken ts = Token.EOF →
      parseProgram ts = (⟨[]⟩, [])) ∧
    (∀ (ts ts' : List Token) (s : Statement), currentToken ts ≠ Token.EOF →
      parseStatement ts = (Except.ok s, ts') →
      parseProgram ts =
        (⟨s :: (parseProgram (advanceTokens ts')).1.statements⟩,
          (parseProgram (advanceTokens ts')).2)) ∧
    (∀ (ts ts' : List Token) (e : ParserError), currentToken ts ≠ Token.EOF →
      parseStatement ts = (Except.error e, ts') →
      parseProgram ts =
        ((parseProgram (advanceTokens ts')).1,
          e :: (parseProgram (advanceTokens ts')).2)) ∧
    (∀ (t : Token) (rest : List Token),
      advanceTokens (Token.Semicolon :: rest) = rest ∧
      (t ≠ Token.Semicolon → t ≠ Token.EOF →
        advanceTokens (t :: rest) = advanceTokens rest) ∧
      advanceTokens (Token.EOF :: rest) = Token.EOF :: rest ∧
      advanceTokens ([] : List Token) = []) := by
refine ⟨fun ts n h => parseProgramF_eq_parseProgram ts n h,
  fun ts h => parseProgram_eof h,
  fun ts ts' s h hp => parseProgram_cons_ok h hp,
  fun ts ts' e h hp => parseProgram_cons_error h hp,
  fun t rest => ⟨by simp [advanceTokens], fun h1 h2 => by
    simp [advanceTokens, h1, h2], by simp [advanceTokens], rfl⟩⟩

theorem claim_C1_witness :
    parseProgram [Token.Identifier ("a"), Token.Semicolon] =
      (⟨[Statement.Expression (Expression.Identifier ("a"))]⟩, []) ∧
    parseProgram ([] : List Token) = (⟨[]⟩, []) ∧
    parseProgram [Token.Let, Token.Identifier ("x"), Token.Integer ("5"),
      Token.Semicolon] = (⟨[]⟩, [ParserError.mk]) ∧
    parseProgramF (FUEL [Token.Semicolon]) [Token.Semicolon] =
      some (parseProgram [Token.Semicolon]) ∧
    advanceTokens [Token.Plus, Token.Semicolon] = [] := by
refine ⟨?_, claim_C1.2.1 [] rfl, ?_, claim_C1.1 [Token.Semicolon] _ (Nat.le_refl _), ?_⟩
· have h := claim_C1.2.2.1 [Token.Identifier ("a"), Token.Semicolon]
    [Token.Semicolon] (Statement.Expression (Expression.Identifier ("a")))
    (by decide) rfl
  rw [h]
  rfl
· have h := claim_C1.2.2.2.1 [Token.Let, Token.Identifier ("x"),
    Token.Integer ("5"), Token.Semicolon]
    [Token.Identifier ("x"), Token.Integer ("5"), Token.Semicolon]
    ParserError.mk (by decide) rfl
  rw [h]
  rfl
· have h := (claim_C1.2.2.2.2 Token.Plus [Token.Semicolon]).2.1
    (by decide) (by decide)
  rw [h]
  rfl

/-- C4 counterexample: the input consisting of only `;` does not yield
zero errors: the semicolon has no prefix rule, so exactly one error is
recorded. -/
theorem claim_C4_counterexample :
    parseProgram (lex (";")) = (⟨[]⟩, [ParserError.mk]) ∧
    (parseProgram (lex (";"))).2.length ≠ 0 := by
refine ⟨rfl, ?_⟩
rw [(rfl : parseProgram (lex (";")) = (⟨[]⟩, [ParserError.mk]))]
decide

/-- C4 (amended): parsing the empty input yields an empty program and
zero recorded errors; parsing the input consisting of only `;` yields an
empty program and exactly one recorded error. -/
theorem claim_C4 :
    parseProgram (lex ("")) = (⟨[]⟩, []) ∧
    parseProgram (lex (";")) = (⟨[]⟩, [ParserError.mk]) :=
⟨rfl, rfl⟩

/-- C9: reaching the end marker before the closing brace of a block makes
the block loop return success with the statements collected so far, and
the unterminated block is silently accepted: the given input parses to
the enclosing statement with an empty error list. -/
theorem claim_C9 :
    (∀ (fuel : Nat) (acc : List Statement) (ts : List Token),
      currentToken ts = Token.EOF →
      parseBlockLoopF (fuel + 1) acc ts = some (Except.ok acc, ts)) ∧
    parseProgram (lex ("if (x) \x7b y")) =
      (⟨[Statement.Expression (Expression.If (Expression.Identifier ("x"))
        [Statement.Expression (Expression.Identifier ("y"))] none)]⟩, []) := by
refine ⟨?_, rfl⟩
intro fuel acc ts h
simp only [parseBlockLoopF]
rw [if_neg (by simp [h])]

theorem claim_C9_witness :
    parseBlockLoopF 1 [] ([] : List Token) = some (Except.ok [], []) :=
claim_C9.1 0 [] [] rfl

/-- C10: a successful expression statement not followed by `;` keeps its
state, and resynchronization discards every token up to and including the
next `;` (or everything when the end marker comes first) without touching
the error list; the input with two bare identifiers parses to one
statement and zero errors. -/
theorem claim_C10 :
    (∀ (fuel : Nat) (ts ts1 : List Token) (e : Expression),
      parseExpressionF fuel Precedence.LOWEST ts = some (Except.ok e, ts1) →
      peekingToken ts1 ≠ Token.Semicolon →
      parseExpressionStatementF (fuel + 1) ts =
        some (Except.ok (Statement.Expression e), ts1)) ∧
    (∀ pre rest : List Token,
      (∀ t ∈ pre, t ≠ Token.Semicolon ∧ t ≠ Token.EOF) →
      advanceTokens (pre ++ Token.Semicolon :: rest) = rest) ∧
    (∀ pre : List Token,
      (∀ t ∈ pre, t ≠ Token.Semicolon ∧ t ≠ Token.EOF) →
      advanceTokens pre = []) ∧
    parseProgram (lex ("a b")) =
      (⟨[Statement.Expression (Expression.Identifier ("a"))]⟩, []) := by
refine ⟨?_, ?_, ?_, rfl⟩
· intro fuel ts ts1 e hp hs
  simp only [parseExpressionStatementF, pbind, hp]
  rw [if_neg hs]
· intro pre rest hpre
  induction pre with
  | nil => simp [advanceTokens]
  | cons t pre ih =>
    have ht := hpre t (by simp)
    simp only [List.cons_append, advanceTokens, ht.1, ht.2, if_false]
    exact ih (fun u hu => hpre u (by simp [hu]))
· intro pre hpre
  induction pre with
  | nil => rfl
  | cons t pre ih =>
    have ht := hpre t (by simp)
    simp only [advanceTokens, ht.1, ht.2, if_false]
    exact ih (fun u hu => hpre u (by simp [hu]))

theorem claim_C10_witness :
    parseExpressionStatementF 11
      [Token.Identifier ("a"), Token.Identifier ("b")] =
      some (Except.ok (Statement.Expression (Expression.Identifier ("a"))),
        [Token.Identifier ("a"), Token.Identifier ("b")]) ∧
    advanceTokens [Token.Identifier ("b"), Token.Semicolon,
      Token.Identifier ("c")] = [Token.Identifier ("c")] ∧
    advanceTokens [Token.Identifier ("b")] = [] :=
⟨claim_C10.1 10 _ _ (Expression.Identifier ("a")) rfl (by decide),
 claim_C10.2.1 [Token.Identifier ("b")] [Token.Identifier ("c")] (by decide),
 claim_C10.2.2.1 [Token.Identifier ("b")] (by decide)⟩

/-- C2: the precedence-climbing loop runs exactly while the lookahead is
not `;` and binds strictly tighter than the floor; every infix
continuation parses its right-hand side at the current operator's own
precedence, so operators of equal precedence associate left; and the
three precedence examples render as stated. -/
theorem claim_C2 :
    (∀ (fuel : Nat) (p : Precedence) (lhs : Expression) (ts : List Token),
      parseExprLoopF (fuel + 1) p lhs ts =
        if peekingToken ts ≠ Token.Semicolon ∧
            p < Precedence.fromTok (peekingToken ts) then
          pbind (parseInfixF fuel lhs (nextToken ts)) fun lhs' ts' =>
            parseExprLoopF fuel p lhs' ts'
        else some (Except.ok lhs, ts)) ∧
    (∀ (fuel : Nat) (lhs : Expression) (rest : List Token)
        (o : Token) (op : InfixOperator), (o, op) ∈ infixOpTable →
      parseInfixF (fuel + 1) lhs (o :: rest) =
        pbind (parseExpressionF fuel (Precedence.fromTok o) rest)
          fun rhs ts2 =>
            some (Except.ok (Expression.Infix op lhs rhs), ts2)) ∧
    (∀ (o1 o2 : Token) (op1 op2 : InfixOperator),
      (o1, op1) ∈ infixOpTable → (o2, op2) ∈ infixOpTable →
      Precedence.fromTok o1 = Precedence.fromTok o2 →
      parseProgram [Token.Identifier ("a"), o1, Token.Identifier ("b"), o2,
          Token.Identifier ("c"), Token.Semicolon] =
        (⟨[Statement.Expression (Expression.Infix op2
          (Expression.Infix op1 (Expression.Identifier ("a"))
            (Expression.Identifier ("b")))
          (Expression.Identifier ("c")))]⟩, [])) ∧
    Program.render (parseProgram (lex ("-a * b"))).1 = "((-a) * b)" ∧
    Program.render (parseProgram (lex ("a + b * c + d / e - f"))).1 =
      "(((a + (b * c)) + (d / e)) - f)" ∧
    Program.render (parseProgram (lex ("3 > 5 == false"))).1 =
      "((3 > 5) == false)" := by
refine ⟨fun fuel p lhs ts => rfl, ?_, ?_, rfl, rfl, rfl⟩
· intro fuel lhs rest o op h
  simp only [infixOpTable, List.mem_cons, List.not_mem_nil, or_false] at h
  rcases h with h|h|h|h|h|h|h|h
  all_goals
    injection h with e1 e2
  all_goals
    subst e1
  all_goals
    subst e2
  all_goals rfl
· intro o1 o2 op1 op2 h1 h2 hp
  simp only [infixOpTable, List.mem_cons, List.not_mem_nil, or_false] at h1 h2
  rcases h1 with h1|h1|h1|h1|h1|h1|h1|h1 <;>
    rcases h2 with h2|h2|h2|h2|h2|h2|h2|h2 <;>
    (injection h1 with e1 e2
     injection h2 with e3 e4
     subst e1
     subst e2
     subst e3
     subst e4
     revert hp) <;>
    first
    | (intro hp
       rfl)
    | (intro hp
       exact absurd hp (by decide))

theorem claim_C2_witness :
    parseProgram [Token.Identifier ("a"), Token.Plus, Token.Identifier ("b"),
        Token.Minus, Token.Identifier ("c"), Token.Semicolon] =
      (⟨[Statement.Expression (Expression.Infix InfixOperator.Sub
        (Expression.Infix InfixOperator.Add (Expression.Identifier ("a"))
          (Expression.Identifier ("b")))
        (Expression.Identifier ("c")))]⟩, []) ∧
    parseInfixF 5 (Expression.Identifier ("x")) [Token.Asterisk] =
      pbind (parseExpressionF 4 (Precedence.fromTok Token.Asterisk) [])
        fun rhs ts2 =>
          some (Except.ok (Expression.Infix InfixOperator.Mult
            (Expression.Identifier ("x")) rhs), ts2) :=
⟨claim_C2.2.2.1 Token.Plus Token.Minus InfixOperator.Add InfixOperator.Sub
  (by decide) (by decide) (by decide),
 claim_C2.2.1 4 (Expression.Identifier ("x")) [] Token.Asterisk
  InfixOperator.Mult (by decide)⟩

/-- A missing identifier after `let` fails without consuming past the
`let`. -/
theorem parseLetF_noIdent (fuel : Nat) (ts : List Token)
    (h : ∀ name, currentToken (nextToken ts) ≠ Token.Identifier name) :
    parseLetStatementF (fuel + 1) ts =
      some (Except.error ParserError.mk, nextToken ts) := by
simp only [parseLetStatementF]

/-- A missing `=` after the `let` identifier fails without consuming the
lookahead. -/
theorem parseLetF_noAssign (fuel : Nat) (ts : List Token) (name : String)
    (hid : currentToken (nextToken ts) = Token.Identifier name)
    (hassign : peekingToken (nextToken ts) ≠ Token.Assign) :
    parseLetStatementF (fuel + 1) ts =
      some (Except.error ParserError.mk, nextToken ts) := by
have hEP : expectPeek Token.Assign (nextToken ts) =
    (Except.error ParserError.mk, nextToken ts) := by
  unfold expectPeek
  rw [if_neg hassign]
simp only [parseLetStatementF, hid, hEP]

/-- On a `let` token the statement dispatch runs the let-statement
parse. -/
theorem parseStatementF_let (fuel : Nat) (ts : List Token)
    (h : currentToken ts = Token.Let) :
    parseStatementF (fuel + 1) ts = parseLetStatementF fuel ts := by
simp only [parseStatementF, h]

/-- A `let` statement whose `=` is absent fails, leaving the cursor on
the identifier. -/
theorem parseStatement_letNoAssign (ts : List Token) (name : String)
    (hcur : currentToken ts = Token.Let)
    (hid : currentToken (nextToken ts) = Token.Identifier name)
    (hassign : peekingToken (nextToken ts) ≠ Token.Assign) :
    parseStatement ts = (Except.error ParserError.mk, nextToken ts) := by
unfold parseStatement
rw [(by unfold FUEL; omega : FUEL ts = 11 * ts.length + 9 + 1 + 1)]
rw [parseStatementF_let _ _ hcur]
rw [parseLetF_noAssign _ _ _ hid hassign]
rfl

/-- C3: a `let` statement requires an identifier and then `=`, failing
with a parse error when either is absent; for the token form of
`let x 5;` followed by anything, the failed statement contributes no
statement and exactly one error, and parsing continues past the consumed
`;` with the rest of the stream; on the concrete input the program is
empty with one error. -/
theorem claim_C3 :
    (∀ (fuel : Nat) (ts : List Token),
      (∀ name, currentToken (nextToken ts) ≠ Token.Identifier name) →
      parseLetStatementF (fuel + 1) ts =
        some (Except.error ParserError.mk, nextToken ts)) ∧
    (∀ (fuel : Nat) (ts : List Token) (name : String),
      currentToken (nextToken ts) = Token.Identifier name →
      peekingToken (nextToken ts) ≠ Token.Assign →
      parseLetStatementF (fuel + 1) ts =
        some (Except.error ParserError.mk, nextToken ts)) ∧
    (∀ rest : List Token,
      parseProgram ([Token.Let, Token.Identifier ("x"), Token.Integer ("5"),
          Token.Semicolon] ++ rest) =
        ((parseProgram rest).1, ParserError.mk :: (parseProgram rest).2)) ∧
    parseProgram (lex ("let x 5;")) = (⟨[]⟩, [ParserError.mk]) := by
refine ⟨parseLetF_noIdent, parseLetF_noAssign, ?_, rfl⟩
intro rest
have hp := parseStatement_letNoAssign
  ([Token.Let, Token.Identifier ("x"), Token.Integer ("5"),
    Token.Semicolon] ++ rest) ("x") rfl rfl
  (fun hc => Token.noConfusion hc)
have hne2 : currentToken ([Token.Let, Token.Identifier ("x"),
    Token.Integer ("5"), Token.Semicolon] ++ rest) ≠ Token.EOF :=
  fun hc => Token.noConfusion hc
have h := parseProgram_cons_error hne2 hp
rw [h]
rfl

theorem claim_C3_witness :
    parseLetStatementF 3 [Token.Let, Token.Plus] =
      some (Except.error ParserError.mk, [Token.Plus]) ∧
    parseLetStatementF 3 [Token.Let, Token.Identifier ("x"),
        Token.Integer ("5")] =
      some (Except.error ParserError.mk,
        [Token.Identifier ("x"), Token.Integer ("5")]) ∧
    parseProgram [Token.Let, Token.Identifier ("x"), Token.Integer ("5"),
        Token.Semicolon] = (⟨[]⟩, [ParserError.mk]) := by
refine ⟨claim_C3.1 2 [Token.Let, Token.Plus]
  (fun name h => Token.noConfusion h),
  claim_C3.2.1 2 [Token.Let, Token.Identifier ("x"), Token.Integer ("5")]
    ("x") rfl (by decide), ?_⟩
have h := claim_C3.2.2.1 []
simp only [List.append_nil] at h
rw [h]
rfl

/-- A matching lookahead makes `expect_peek!` advance. -/
theorem expectPeek_pos {t : Token} {ts : List Token}
    (h : peekingToken ts = t) :
    expectPeek t ts = (Except.ok (), nextToken ts) := by
unfold expectPeek
rw [if_pos h]

/-- A mismatched lookahead makes `expect_peek!` fail in place. -/
theorem expectPeek_neg {t : Token} {ts : List Token}
    (h : peekingToken ts ≠ t) :
    expectPeek t ts = (Except.error ParserError.mk, ts) := by
unfold expectPeek
rw [if_neg h]

/-- C5: an if expression requires `(`, a condition, `)` and `{` in turn,
each missing token being a parse error at that position; after a parsed
consequence block an `else { alternative }` branch is parsed exactly when
the lookahead is `else`, and otherwise the node's alternative is
absent. -/
theorem claim_C5 :
    (∀ (fuel : Nat) (ts : List Token), peekingToken ts ≠ Token.LParen →
      parseIfExpressionF (fuel + 1) ts =
        some (Except.error ParserError.mk, ts)) ∧
    (∀ (fuel : Nat) (ts ts3 : List Token) (c : Expression),
      peekingToken ts = Token.LParen →
      parseExpressionF fuel Precedence.LOWEST (nextToken (nextToken ts)) =
        some (Except.ok c, ts3) →
      peekingToken ts3 ≠ Token.RParen →
      parseIfExpressionF (fuel + 1) ts =
        some (Except.error ParserError.mk, ts3)) ∧
    (∀ (fuel : Nat) (ts ts3 : List Token) (c : Expression),
      peekingToken ts = Token.LParen →
      parseExpressionF fuel Precedence.LOWEST (nextToken (nextToken ts)) =
        some (Except.ok c, ts3) →
      peekingToken ts3 = Token.RParen →
      peekingToken (nextToken ts3) ≠ Token.LBrace →
      parseIfExpressionF (fuel + 1) ts =
        some (Except.error ParserError.mk, nextToken ts3)) ∧
    (∀ (fuel : Nat) (ts ts3 ts6 : List Token) (c : Expression)
        (cons : List Statement),
      peekingToken ts = Token.LParen →
      parseExpressionF fuel Precedence.LOWEST (nextToken (nextToken ts)) =
        some (Except.ok c, ts3) →
      peekingToken ts3 = Token.RParen →
      peekingToken (nextToken ts3) = Token.LBrace →
      parseBlockStatementF fuel (nextToken (nextToken ts3)) =
        some (Except.ok cons, ts6) →
      peekingToken ts6 ≠ Token.Else →
      parseIfExpressionF (fuel + 1) ts =
        some (Except.ok (Expression.If c cons none), ts6)) ∧
    (∀ (fuel : Nat) (ts ts3 ts6 ts9 : List Token) (c : Expression)
        (cons alt : List Statement),
      peekingToken ts = Token.LParen →
      parseExpressionF fuel Precedence.LOWEST (nextToken (nextToken ts)) =
        some (Except.ok c, ts3) →
      peekingToken ts3 = Token.RParen →
      peekingToken (nextToken ts3) = Token.LBrace →
      parseBlockStatementF fuel (nextToken (nextToken ts3)) =
        some (Except.ok cons, ts6) →
      peekingToken ts6 = Token.Else →
      peekingToken (nextToken ts6) = Token.LBrace →
      parseBlockStatementF fuel (nextToken (nextToken ts6)) =
        some (Except.ok alt, ts9) →
      parseIfExpressionF (fuel + 1) ts =
        some (Except.ok (Expression.If c cons (some alt)), ts9)) := by
refine ⟨?_, ?_, ?_, ?_, ?_⟩
· intro fuel ts h
  simp only [parseIfExpressionF, expectPeek_neg h]
· intro fuel ts ts3 c h1 h2 h3
  simp only [parseIfExpressionF, expectPeek_pos h1, h2, pbind,
    expectPeek_neg h3]
· intro fuel ts ts3 c h1 h2 h3 h4
  simp only [parseIfExpressionF, expectPeek_pos h1, h2, pbind,
    expectPeek_pos h3, expectPeek_neg h4]
· intro fuel ts ts3 ts6 c cons h1 h2 h3 h4 h5 h6
  simp only [parseIfExpressionF, expectPeek_pos h1, h2, pbind,
    expectPeek_pos h3, expectPeek_pos h4, h5, if_neg h6]
· intro fuel ts ts3 ts6 ts9 c cons alt h1 h2 h3 h4 h5 h6 h7 h8
  simp only [parseIfExpressionF, expectPeek_pos h1, h2, pbind,
    expectPeek_pos h3, expectPeek_pos h4, h5, if_pos h6,
    expectPeek_pos h7, h8]

theorem claim_C5_witness :
    parseIfExpressionF 1 [Token.If] =
      some (Except.error ParserError.mk, [Token.If]) ∧
    parseIfExpressionF 31 [Token.If, Token.LParen, Token.Identifier ("x"),
        Token.RBrace] =
      some (Except.error ParserError.mk,
        [Token.Identifier ("x"), Token.RBrace]) ∧
    parseIfExpressionF 31 [Token.If, Token.LParen, Token.Identifier ("x"),
        Token.RParen, Token.Identifier ("z")] =
      some (Except.error ParserError.mk,
        [Token.RParen, Token.Identifier ("z")]) ∧
    parseIfExpressionF 31 [Token.If, Token.LParen, Token.Identifier ("x"),
        Token.RParen, Token.LBrace, Token.Identifier ("y"), Token.RBrace] =
      some (Except.ok (Expression.If (Expression.Identifier ("x"))
        [Statement.Expression (Expression.Identifier ("y"))] none),
        [Token.RBrace]) ∧
    parseIfExpressionF 31 [Token.If, Token.LParen, Token.Identifier ("x"),
        Token.RParen, Token.LBrace, Token.Identifier ("y"), Token.RBrace,
        Token.Else, Token.LBrace, Token.Identifier ("z"), Token.RBrace] =
      some (Except.ok (Expression.If (Expression.Identifier ("x"))
        [Statement.Expression (Expression.Identifier ("y"))]
        (some [Statement.Expression (Expression.Identifier ("z"))])),
        [Token.RBrace]) :=
⟨claim_C5.1 0 [Token.If] (by decide),
 claim_C5.2.1 30 _ [Token.Identifier ("x"), Token.RBrace]
   (Expression.Identifier ("x")) (by decide) rfl (by decide),
 claim_C5.2.2.1 30 _ [Token.Identifier ("x"), Token.RParen,
     Token.Identifier ("z")] (Expression.Identifier ("x"))
   (by decide) rfl (by decide) (by decide),
 claim_C5.2.2.2.1 30 _ [Token.Identifier ("x"), Token.RParen, Token.LBrace,
     Token.Identifier ("y"), Token.RBrace] [Token.RBrace]
   (Expression.Identifier ("x"))
   [Statement.Expression (Expression.Identifier ("y"))]
   (by decide) rfl (by decide) (by decide) rfl (by decide),
 claim_C5.2.2.2.2 30 _ [Token.Identifier ("x"), Token.RParen, Token.LBrace,
     Token.Identifier ("y"), Token.RBrace, Token.Else, Token.LBrace,
     Token.Identifier ("z"), Token.RBrace]
   [Token.RBrace, Token.Else, Token.LBrace, Token.Identifier ("z"),
     Token.RBrace] [Token.RBrace]
   (Expression.Identifier ("x"))
   [Statement.Expression (Expression.Identifier ("y"))]
   [Statement.Expression (Expression.Identifier ("z"))]
   (by decide) rfl (by decide) (by decide) rfl (by decide) (by decide) rfl⟩

/-- C6 counterexample: the claim that parameters must be comma-separated
and that a missing closing `)` is a parse error is false: `fn(x y) { }`
parses with zero errors to a function with parameters `x, y`, and
`fn(x + { })`, which has no closing `)` before the body, also parses with
zero errors. -/
theorem claim_C6_counterexample :
    parseProgram (lex ("fn(x y) \x7b \x7d")) =
      (⟨[Statement.Expression (Expression.Function
        [Expression.Identifier ("x"), Expression.Identifier ("y")] [])]⟩,
        []) ∧
    (parseProgram (lex ("fn(x y) \x7b \x7d"))).2.length = 0 ∧
    parseProgram (lex ("fn(x + \x7b \x7d)")) =
      (⟨[Statement.Expression (Expression.Function
        [Expression.Identifier ("x")] [])]⟩, []) ∧
    (parseProgram (lex ("fn(x + \x7b \x7d)"))).2.length = 0 := by
exact ⟨rfl, rfl, rfl, rfl⟩

/-- C6 (amended): a function literal requires `(` at the lookahead and
`{ body }` after the parameter run, each enforced by `expect_peek!`; the
parameter list itself never fails: it is a possibly empty run of
identifiers, each optionally followed by a comma, so comma separation is
not enforced and the closing `)` is not itself checked (it is merely the
usual non-identifier token ending the run). -/
theorem claim_C6 :
    (∀ (fuel : Nat) (ts : List Token), peekingToken ts ≠ Token.LParen →
      parseFunctionLiteralF (fuel + 1) ts =
        some (Except.error ParserError.mk, ts)) ∧
    (∀ ts : List Token, ∃ ps ts',
      parseFunctionParams ts = (Except.ok ps, ts')) ∧
    (∀ (s : String) (rest : List Token),
      parseParamsLoop (Token.Identifier s :: Token.Comma :: rest) =
        (Expression.Identifier s :: (parseParamsLoop rest).1,
          (parseParamsLoop rest).2)) ∧
    (∀ (s : String) (rest : List Token),
      (∀ rest', rest = Token.Comma :: rest' → False) →
      parseParamsLoop (Token.Identifier s :: rest) =
        (Expression.Identifier s :: (parseParamsLoop rest).1,
          (parseParamsLoop rest).2)) ∧
    (∀ ts : List Token,
      (∀ s rest, ts = Token.Identifier s :: rest → False) →
      parseParamsLoop ts = ([], ts)) ∧
    (∀ (fuel : Nat) (ts ts2 : List Token) (ps : List Expression),
      peekingToken ts = Token.LParen →
      parseFunctionParams (nextToken ts) = (Except.ok ps, ts2) →
      peekingToken ts2 ≠ Token.LBrace →
      parseFunctionLiteralF (fuel + 1) ts =
        some (Except.error ParserError.mk, ts2)) ∧
    (∀ (fuel : Nat) (ts ts2 ts4 : List Token) (ps : List Expression)
        (body : List Statement),
      peekingToken ts = Token.LParen →
      parseFunctionParams (nextToken ts) = (Except.ok ps, ts2) →
      peekingToken ts2 = Token.LBrace →
      parseBlockStatementF fuel (nextToken ts2) =
        some (Except.ok body, ts4) →
      parseFunctionLiteralF (fuel + 1) ts =
        some (Except.ok (Expression.Function ps body), ts4)) ∧
    parseProgram (lex ("fn(x, y) \x7b x + y; \x7d")) =
      (⟨[Statement.Expression (Expression.Function
        [Expression.Identifier ("x"), Expression.Identifier ("y")]
        [Statement.Expression (Expression.Infix InfixOperator.Add
          (Expression.Identifier ("x")) (Expression.Identifier ("y")))])]⟩,
        []) ∧
    parseProgram (lex ("fn(x y) \x7b \x7d")) =
      (⟨[Statement.Expression (Expression.Function
        [Expression.Identifier ("x"), Expression.Identifier ("y")] [])]⟩,
        []) := by
refine ⟨?_, ?_, fun s rest => rfl, ?_, ?_, ?_, ?_, rfl, rfl⟩
· intro fuel ts h
  simp only [parseFunctionLiteralF, expectPeek_neg h]
· intro ts
  unfold parseFunctionParams
  split
  · exact ⟨[], nextToken ts, rfl⟩
  · exact ⟨(parseParamsLoop (nextToken ts)).1,
      (parseParamsLoop (nextToken ts)).2, rfl⟩
· intro s rest h
  simp only [parseParamsLoop, h]
· intro ts h
  unfold parseParamsLoop
  split
  · next s rest => exact ((h s (Token.Comma :: rest)) rfl).elim
  · next a b hb => exact ((h a b) rfl).elim
  · rfl
· intro fuel ts ts2 ps h1 h2 h3
  simp only [parseFunctionLiteralF, expectPeek_pos h1, h2,
    expectPeek_neg h3]
· intro fuel ts ts2 ts4 ps body h1 h2 h3 h4
  simp only [parseFunctionLiteralF, expectPeek_pos h1, h2,
    expectPeek_pos h3, pbind, h4]

theorem claim_C6_witness :
    parseFunctionLiteralF 1 [Token.Function] =
      some (Except.error ParserError.mk, [Token.Function]) ∧
    parseParamsLoop [Token.Identifier ("x"), Token.Identifier ("y"),
        Token.RParen] =
      (Expression.Identifier ("x") ::
        (parseParamsLoop [Token.Identifier ("y"), Token.RParen]).1,
        (parseParamsLoop [Token.Identifier ("y"), Token.RParen]).2) ∧
    parseParamsLoop [Token.RParen] = ([], [Token.RParen]) ∧
    parseFunctionLiteralF 31 [Token.Function, Token.LParen,
        Token.Identifier ("x"), Token.RParen, Token.LBrace, Token.RBrace] =
      some (Except.ok (Expression.Function [Expression.Identifier ("x")] []),
        [Token.RBrace]) ∧
    parseFunctionLiteralF 31 [Token.Function, Token.LParen,
        Token.Identifier ("x"), Token.RParen, Token.RParen] =
      some (Except.error ParserError.mk, [Token.RParen, Token.RParen]) :=
⟨claim_C6.1 0 [Token.Function] (by decide),
 claim_C6.2.2.2.1 ("x") [Token.Identifier ("y"), Token.RParen]
   (fun rest' h => List.noConfusion h (fun h1 _ => Token.noConfusion h1)),
 claim_C6.2.2.2.2.1 [Token.RParen]
   (fun s rest h => List.noConfusion h (fun h1 _ => Token.noConfusion h1)),
 claim_C6.2.2.2.2.2.2.1 30 _ [Token.RParen, Token.LBrace, Token.RBrace]
   [Token.RBrace] [Expression.Identifier ("x")] [] (by decide) rfl
   (by decide) rfl,
 claim_C6.2.2.2.2.2.1 30 _ [Token.RParen, Token.RParen]
   [Expression.Identifier ("x")] (by decide) rfl (by decide)⟩

/-- C7 counterexample: the round-trip fails on the two-statement
precedence test input `3 + 4; -5 * 5`: its rendering drops the statement
separator, so the rendered text re-parses as a single call expression
instead of two statements. -/
theorem claim_C7_counterexample :
    (parseProgram (lex ("3 + 4; -5 * 5"))).1.statements.length = 2 ∧
    Program.render (parseProgram (lex ("3 + 4; -5 * 5"))).1 =
      "(3 + 4)\n((-5) * 5)" ∧
    (parseProgram (lex (Program.render
      (parseProgram (lex ("3 + 4; -5 * 5"))).1))).1.statements.length = 1 :=
⟨rfl, rfl, rfl⟩

/-- C7 (amended): rendering the parse tree of any single-statement
precedence test input and re-lexing and re-parsing the rendered text
yields a structurally identical tree; for the one multi-statement input
the rendered text re-parses to a different tree. -/
theorem claim_C7 :
    ∀ s ∈ precedenceSingles,
      (parseProgram (lex (Program.render (parseProgram (lex s)).1))).1 =
        (parseProgram (lex s)).1 := by
intro s hs
simp only [precedenceSingles, List.mem_cons, List.not_mem_nil,
  or_false] at hs
rcases hs with rfl|rfl|rfl|rfl|rfl|rfl|rfl|rfl|rfl|rfl|rfl|rfl|rfl|rfl|
  rfl|rfl|rfl|rfl|rfl|rfl
all_goals rfl

theorem claim_C7_witness :
    (parseProgram (lex (Program.render
      (parseProgram (lex ("-a * b"))).1))).1 =
      (parseProgram (lex ("-a * b"))).1 :=
claim_C7 ("-a * b") (by simp [precedenceSingles])

/-- Exhausted character input produces no further token, whatever the
fuel. -/
theorem tokenizeF_nil (fuel : Nat) : tokenizeF fuel [] = [] := by
cases fuel <;> rfl

/-- An identifier-opening character also continues an identifier run. -/
theorem identChar_of_identStart {c : Char} (h : isIdentStart c = true) :
    isIdentChar c = true := by
simp only [isIdentStart, Bool.or_eq_true, decide_eq_true_eq] at h
simp only [isIdentChar, Char.isAlphanum, Bool.or_eq_true, decide_eq_true_eq]
rcases h with h | h
· exact Or.inl (Or.inl h)
· exact Or.inr h

/-- The lexer terminates within fuel equal to the character count: every
dispatch consumes at least one character, so any two sufficient fuels
tokenize identically. -/
theorem tokenizeF_congr : ∀ (n : Nat) (cs : List Char), cs.length ≤ n →
    ∀ f1 f2 : Nat, cs.length ≤ f1 → cs.length ≤ f2 →
    tokenizeF f1 cs = tokenizeF f2 cs := by
intro n
induction n with
| zero =>
  intro cs h f1 f2 h1 h2
  have hc : cs = [] := List.eq_nil_of_length_eq_zero (by omega)
  subst hc
  rw [tokenizeF_nil, tokenizeF_nil]
| succ n ih =>
  intro cs hlen f1 f2 h1 h2
  cases cs with
  | nil => rw [tokenizeF_nil, tokenizeF_nil]
  | cons c cs' =>
    have l0 : (c :: cs').length = cs'.length + 1 := rfl
    rw [l0] at hlen h1 h2
    cases f1 with
    | zero => omega
    | succ k1 =>
      cases f2 with
      | zero => omega
      | succ k2 =>
        simp only [tokenizeF]
        by_cases hw : (c = ' ' ∨ c = '\t' ∨ c = '\n' ∨ c = '\r')
        · rw [if_pos hw, if_pos hw]
          exact ih cs' (by omega) k1 k2 (by omega) (by omega)
        · rw [if_neg hw, if_neg hw]
          by_cases hi : isIdentStart c = true
          · rw [if_pos hi, if_pos hi]
            have hd : ((c :: cs').dropWhile isIdentChar).length ≤ cs'.length := by
              rw [List.dropWhile_cons, if_pos (identChar_of_identStart hi)]
              exact (List.dropWhile_suffix isIdentChar).length_le
            rw [ih ((c :: cs').dropWhile isIdentChar) (by omega) k1 k2
              (by omega) (by omega)]
          · rw [if_neg hi, if_neg hi]
            by_cases hdg : c.isDigit = true
            · rw [if_pos hdg, if_pos hdg]
              have hd : ((c :: cs').dropWhile Char.isDigit).length ≤
                  cs'.length := by
                rw [List.dropWhile_cons, if_pos hdg]
                exact (List.dropWhile_suffix Char.isDigit).length_le
              rw [ih ((c :: cs').dropWhile Char.isDigit) (by omega) k1 k2
                (by omega) (by omega)]
            · rw [if_neg hdg, if_neg hdg]
              by_cases he : c = '='
              · rw [if_pos he, if_pos he]
                cases cs' with
                | nil =>
                  show Token.Assign :: tokenizeF k1 [] =
                    Token.Assign :: tokenizeF k2 []
                  rw [tokenizeF_nil, tokenizeF_nil]
                | cons c2 cs'' =>
                  have l2 : (c2 :: cs'').length = cs''.length + 1 := rfl
                  rw [l2] at hlen h1 h2
                  split
                  · next cs3 heq =>
                    injection heq with hq1 hq2
                    subst hq2
                    rw [ih cs'' (by omega) k1 k2 (by omega) (by omega)]
                  · rw [ih (c2 :: cs'') (by omega) k1 k2 (by omega)
                      (by omega)]
              · rw [if_neg he, if_neg he]
                by_cases hb : c = '!'
                · rw [if_pos hb, if_pos hb]
                  cases cs' with
                  | nil =>
                    show Token.Bang :: tokenizeF k1 [] =
                      Token.Bang :: tokenizeF k2 []
                    rw [tokenizeF_nil, tokenizeF_nil]
                  | cons c2 cs'' =>
                    have l2 : (c2 :: cs'').length = cs''.length + 1 := rfl
                    rw [l2] at hlen h1 h2
                    split
                    · next cs3 heq =>
                      injection heq with hq1 hq2
                      subst hq2
                      rw [ih cs'' (by omega) k1 k2 (by omega) (by omega)]
                    · rw [ih (c2 :: cs'') (by omega) k1 k2 (by omega)
                        (by omega)]
                · rw [if_neg hb, if_neg hb]
                  cases hsc : singleCharToken c with
                  | none =>
                    simp only [hsc]
                    exact ih cs' (by omega) k1 k2 (by omega) (by omega)
                  | some t =>
                    simp only [hsc]
                    rw [ih cs' (by omega) k1 k2 (by omega) (by omega)]

/-- An iterating parameter loop strictly consumes. -/
theorem parseParamsLoop_cons_length (s : String) (rest : List Token) :
    (parseParamsLoop (Token.Identifier s :: rest)).2.length <
      (Token.Identifier s :: rest).length := by
cases rest with
| nil => simp [parseParamsLoop]
| cons t rest' =>
  by_cases ht : t = Token.Comma
  · subst ht
    simp only [parseParamsLoop]
    have h := (parseParamsLoop_suffix rest').length_le
    have e : (Token.Identifier s :: Token.Comma :: rest').length =
      rest'.length + 2 := rfl
    omega
  · have hno : ∀ rest_1, (t :: rest') = Token.Comma :: rest_1 → False :=
      fun r1 hh => ht (List.cons.inj hh).1
    simp only [parseParamsLoop, hno]
    have h := (parseParamsLoop_suffix (t :: rest')).length_le
    have e : (Token.Identifier s :: t :: rest').length =
      (t :: rest').length + 1 := rfl
    omega

/-- C8: lexing and parsing of a bounded input terminate within fuel
linear in the input size (more fuel never changes the result), because
every loop strictly consumes at least one token per iteration: the
program loop, the precedence-climbing loop, the resynchronization loop,
the block loop, the parameter loop and the call-argument loop each
strictly shrink the remaining token stream on every iteration. -/
theorem claim_C8 :
    (∀ (cs : List Char) (f1 f2 : Nat), cs.length ≤ f1 → cs.length ≤ f2 →
      tokenizeF f1 cs = tokenizeF f2 cs) ∧
    (∀ (ts : List Token) (n : Nat), FUEL ts ≤ n →
      parseProgramF n ts = some (parseProgram ts)) ∧
    (∀ ts : List Token, currentToken ts ≠ Token.EOF →
      (advanceTokens (parseStatement ts).2).length < ts.length) ∧
    (∀ (n : Nat) (p : Precedence) (lhs : Expression) (ts ts' : List Token)
        (r : Except ParserError Expression),
      peekingToken ts ≠ Token.Semicolon →
      p < Precedence.fromTok (peekingToken ts) →
      parseInfixF n lhs (nextToken ts) = some (r, ts') →
      ts'.length < ts.length) ∧
    (∀ (t : Token) (rest : List Token), t ≠ Token.Semicolon →
      t ≠ Token.EOF →
      (advanceTokens (t :: rest)).length < (t :: rest).length) ∧
    (∀ (n : Nat) (ts ts' : List Token) (r : Except ParserError Statement),
      currentToken ts ≠ Token.RBrace → currentToken ts ≠ Token.EOF →
      parseStatementF n ts = some (r, ts') →
      (nextToken ts').length < ts.length) ∧
    (∀ (s : String) (rest : List Token),
      (parseParamsLoop (Token.Identifier s :: rest)).2.length <
        (Token.Identifier s :: rest).length) ∧
    (∀ (n : Nat) (ts ts' : List Token)
        (r : Except ParserError Expression),
      peekingToken ts = Token.Comma →
      parseExpressionF n Precedence.LOWEST (nextToken (nextToken ts)) =
        some (r, ts') →
      ts'.length < ts.length) := by
refine ⟨fun cs f1 f2 h1 h2 => tokenizeF_congr cs.length cs (Nat.le_refl _)
  f1 f2 h1 h2,
  fun ts n h => parseProgramF_eq_parseProgram ts n h,
  fun ts h => advance_after_statement_lt h, ?_, ?_, ?_,
  parseParamsLoop_cons_length, ?_⟩
· intro n p lhs ts ts' r h1 h2 h3
  have hpeek := peek_ne_EOF_of_guard p ts h2
  have hL := two_le_length_of_peek_ne ts hpeek
  have hs := (parseInfixF_suffix n lhs (nextToken ts) r ts' h3).length_le
  have e := nextToken_length ts
  omega
· intro t rest h1 h2
  refine advanceTokens_length_lt (t :: rest) ?_
  simp only [currentToken, List.headD]
  exact h2
· intro n ts ts' r h1 h2 h3
  have hne := ne_nil_of_current_ne ts h2
  have hL := List.length_pos.mpr hne
  have hs := (parseStatementF_suffix n ts r ts' h3).length_le
  have e := nextToken_length ts'
  omega
· intro n ts ts' r h1 h2
  have hpeek : peekingToken ts ≠ Token.EOF := by
    rw [h1]
    simp
  have hL := two_le_length_of_peek_ne ts hpeek
  have hs := (parseExpressionF_suffix n Precedence.LOWEST
    (nextToken (nextToken ts)) r ts' h2).length_le
  have e1 := nextToken_length ts
  have e2 := nextToken_length (nextToken ts)
  omega

theorem claim_C8_witness :
    tokenizeF 1 [Char.ofNat 97] = tokenizeF 3 [Char.ofNat 97] ∧
    parseProgramF (FUEL [Token.Semicolon]) [Token.Semicolon] =
      some (parseProgram [Token.Semicolon]) ∧
    (advanceTokens (parseStatement [Token.Identifier ("a")]).2).length <
      1 ∧
    ([Token.Identifier ("b")] : List Token).length <
      ([Token.Identifier ("a"), Token.Plus,
        Token.Identifier ("b")] : List Token).length ∧
    (advanceTokens [Token.Plus]).length < ([Token.Plus] : List Token).length ∧
    (nextToken [Token.Identifier ("y")]).length < 1 ∧
    (parseParamsLoop [Token.Identifier ("x")]).2.length < 1 ∧
    ([Token.Identifier ("b")] : List Token).length <
      ([Token.Identifier ("a"), Token.Comma,
        Token.Identifier ("b")] : List Token).length := by
refine ⟨claim_C8.1 [Char.ofNat 97] 1 3 (by decide) (by decide),
  claim_C8.2.1 [Token.Semicolon] _ (Nat.le_refl _),
  claim_C8.2.2.1 [Token.Identifier ("a")] (by decide),
  claim_C8.2.2.2.1 9 Precedence.LOWEST (Expression.Identifier ("a"))
    [Token.Identifier ("a"), Token.Plus, Token.Identifier ("b")]
    [Token.Identifier ("b")]
    (Except.ok (Expression.Infix InfixOperator.Add
      (Expression.Identifier ("a")) (Expression.Identifier ("b"))))
    (by decide) (by decide) rfl,
  claim_C8.2.2.2.2.1 Token.Plus [] (by decide) (by decide),
  claim_C8.2.2.2.2.2.1 12 [Token.Identifier ("y")] [Token.Identifier ("y")]
    (Except.ok (Statement.Expression (Expression.Identifier ("y"))))
    (by decide) (by decide) rfl,
  claim_C8.2.2.2.2.2.2.1 ("x") [],
  claim_C8.2.2.2.2.2.2.2 9
    [Token.Identifier ("a"), Token.Comma, Token.Identifier ("b")]
    [Token.Identifier ("b")]
    (Except.ok (Expression.Identifier ("b"))) (by decide) rfl⟩
